import Mathlib

/-!
# Verification of the symbolic checking engine of the flux refinement-type checker

This file gives a shallow embedding of the core data structures and algorithms of
the repository's symbolic checking engine and proves properties of them.

The repository contains two generations of the engine:
* `liquid-rust-typeck` (`checker.rs`, `constraint_gen.rs`) — the older generation,
  embedded in namespace `LR`;
* `flux-refineck` (`constraint_gen.rs`) together with `flux-middle` (`rty/fold.rs`)
  — the newer generation, embedded in namespaces `FX` (constraint generation) and
  `Fold` (the term folding/visiting framework).

Machinery that lives in modules not present in the source tree (e.g.
`Scope::has_free_vars` from `refine_tree.rs`, `TypeEnv::join` from `type_env.rs`)
is modelled from the specification; each such definition is marked
`Modelled from the spec:` in its doc comment.
-/

namespace Spec2Proof

/-! ## Part 1: the `liquid-rust-typeck` generation (`LR`)

Term grammar reconstructed from the uses in `liquid-rust-typeck/src/checker.rs`
and `liquid-rust-typeck/src/constraint_gen.rs`.  Names, spans, def-ids, sorts and
locations are represented by natural numbers. -/

namespace LR

/-- `ty::Var`: a free variable (`Var::Free(Name)`) or the bound variable of an
existential binder (`Var::Bound`). -/
inductive Var where
  | free (n : Nat)
  | bound
  deriving DecidableEq, Repr

/-- Binary operators of the expression algebra (`ty::BinOp`). -/
inductive BinOp where
  | eq | ne | add | sub | mul | div | gt | lt | le | and | or
  deriving DecidableEq, Repr

/-- Unary operators (`ty::UnOp`). -/
inductive UnOp where
  | not | neg
  deriving DecidableEq, Repr

/-- `ty::Expr`: the refinement expression algebra of the `liquid-rust` generation. -/
inductive Expr where
  | var (v : Var)
  | constant (c : Nat)
  | binaryOp (op : BinOp) (e1 e2 : Expr)
  | unaryOp (op : UnOp) (e : Expr)
  deriving DecidableEq, Repr

/-- `Expr::not` as used by `check_assert` and `check_switch_int`. -/
def Expr.not (e : Expr) : Expr := Expr.unaryOp UnOp.not e

/-- Substitute the bound variable of a binder by expression `to` (`subst_bound_vars`
at the expression level). -/
def Expr.substBound (e : Expr) (tgt : Expr) : Expr :=
  match e with
  | Expr.var Var.bound => tgt
  | Expr.var (Var.free n) => Expr.var (Var.free n)
  | Expr.constant c => Expr.constant c
  | Expr.binaryOp op e1 e2 => Expr.binaryOp op (e1.substBound tgt) (e2.substBound tgt)
  | Expr.unaryOp op e => Expr.unaryOp op (e.substBound tgt)

/-- `ty::Pred`: a predicate is either an expression or an unknown predicate
(kvar) applied to arguments; `Pred::dummy_kvar()` is a kvar. -/
inductive Pred where
  | expr (e : Expr)
  | kvar (id : Nat) (args : List Expr)
  deriving DecidableEq, Repr

/-- `Pred::subst_bound_vars`. -/
def Pred.substBound (p : Pred) (tgt : Expr) : Pred :=
  match p with
  | Pred.expr e => Pred.expr (e.substBound tgt)
  | Pred.kvar id args => Pred.kvar id (args.map (fun e => e.substBound tgt))

/-- Variances of generic parameters (`rustc_middle::ty::Variance`). -/
inductive Variance where
  | covariant | invariant | contravariant | bivariant
  deriving DecidableEq, Repr

mutual
/-- `ty::BaseTy` of the `liquid-rust` generation: int/uint/bool and nominal
types with generic arguments. -/
inductive BaseTy where
  | int (w : Nat)
  | uint (w : Nat)
  | bool
  | adt (did : Nat) (substs : List Ty)

/-- `ty::Ty` of the `liquid-rust` generation, as matched by
`ConstraintGen::subtyping`: refined base types, existentials, strong references,
weak (mutable) references, shared references, uninitialized and generic
parameters. -/
inductive Ty where
  | refine (bty : BaseTy) (e : Expr)
  | exist (bty : BaseTy) (p : Pred)
  | strgRef (loc : Nat)
  | weakRef (t : Ty)
  | shrRef (t : Ty)
  | uninit
  | param (n : Nat)
end

/-- The pure context from the checker's point of view: a supply of fresh names,
the accumulated path condition (`push_pred` / `push_binding` assumptions) and the
accumulated proof obligations (`push_head`). -/
structure Cursor where
  fresh : Nat
  preds : List Pred
  heads : List Pred
  deriving DecidableEq, Repr

/-- `Cursor::push_pred` / `PureCtxt` assumption: extend the path condition. -/
def Cursor.pushPred (c : Cursor) (p : Pred) : Cursor :=
  { c with preds := c.preds ++ [p] }

/-- `Cursor::push_head`: record a proof obligation. -/
def Cursor.pushHead (c : Cursor) (p : Pred) : Cursor :=
  { c with heads := c.heads ++ [p] }

/-- `PureCtxt::push_binding(sort, f)`: bind a fresh variable, assume `f fresh`,
return the fresh name. -/
def Cursor.pushBinding (c : Cursor) (f : Nat → Pred) : Cursor × Nat :=
  ({ fresh := c.fresh + 1, preds := c.preds ++ [f c.fresh], heads := c.heads }, c.fresh)

/-! ### `ConstraintGen::subtyping` (`liquid-rust-typeck/src/constraint_gen.rs`)

The size measures below ignore expressions and predicates: they only measure the
type structure, which is what the recursion descends on.  Unpacking an
existential produces a `refine` type over the same base type, strictly smaller
in this measure. -/

mutual
def tsize : Ty → Nat
  | .refine bty _ => 1 + bsize bty
  | .exist bty _ => 2 + bsize bty
  | .strgRef _ => 1
  | .weakRef t => 1 + tsize t
  | .shrRef t => 1 + tsize t
  | .uninit => 1
  | .param _ => 1

def bsize : BaseTy → Nat
  | .int _ => 1
  | .uint _ => 1
  | .bool => 1
  | .adt _ substs => 1 + tsizeList substs

def tsizeList : List Ty → Nat
  | [] => 0
  | t :: ts => tsize t + tsizeList ts
end

theorem tsize_pos (t : Ty) : 1 ≤ tsize t := by
  cases t <;> simp [tsize] <;> omega

/-- `izip!(variances, substs1, substs2)`: three-way zip truncating at the
shortest list. -/
def zip3 : List Variance → List Ty → List Ty → List (Variance × Ty × Ty)
  | v :: vs, t1 :: ts1, t2 :: ts2 => (v, t1, t2) :: zip3 vs ts1 ts2
  | _, _, _ => []

/-- Combined type size of a list of variance-annotated subtyping goals. -/
def pairsSize : List (Variance × Ty × Ty) → Nat
  | [] => 0
  | (_, t1, t2) :: rest => tsize t1 + tsize t2 + pairsSize rest

theorem pairsSize_zip3_le (vs : List Variance) :
    ∀ s1 s2, pairsSize (zip3 vs s1 s2) ≤ tsizeList s1 + tsizeList s2 := by
  induction vs with
  | nil => intro s1 s2; cases s1 <;> cases s2 <;> simp [zip3, pairsSize]
  | cons v vs ih =>
    intro s1 s2
    cases s1 with
    | nil => simp [zip3, pairsSize]
    | cons t1 ts1 =>
      cases s2 with
      | nil => simp [zip3, pairsSize]
      | cons t2 ts2 =>
        have := ih ts1 ts2
        simp only [zip3, pairsSize, tsizeList]
        omega

mutual
/-- `ConstraintGen::subtyping` (`liquid-rust-typeck/src/constraint_gen.rs`,
lines 53–103).  `V` is `GlobalEnv::variances_of`.  The cursor collects path
conditions and proof obligations; `none` models a fatal internal-consistency
failure (a failed `assert_eq!`/`debug_assert_eq!`, `unreachable!` or `todo!`).
The arms replicate the source's two sequential `match` statements in order:
syntactically equal refinements and existential predicates are short-circuited,
a left existential is unpacked into the context, and the remaining structural
cases follow. -/
def subtyping (V : Nat → List Variance) (c : Cursor) (ty1 ty2 : Ty) : Option Cursor :=
  match ty1, ty2 with
  | .refine bty1 e1, .refine bty2 e2 =>
    if e1 = e2 then
      btySubtyping V c bty1 bty2
    else
      (btySubtyping V c bty1 bty2).map
        (fun c => c.pushHead (.expr (.binaryOp .eq e1 e2)))
  | .exist bty1 p1, .exist bty2 p2 =>
    if p1 = p2 then
      btySubtyping V c bty1 bty2
    else
      let fr := c.fresh
      let c := (c.pushBinding (fun fresh => p1.substBound (.var (.free fresh)))).1
      subtyping V c (.refine bty1 (.var (.free fr))) (.exist bty2 p2)
  | .exist bty p, ty2 =>
    let fr := c.fresh
    let c := (c.pushBinding (fun fresh => p.substBound (.var (.free fresh)))).1
    subtyping V c (.refine bty (.var (.free fr))) ty2
  | .refine bty1 e, .exist bty2 p =>
    (btySubtyping V c bty1 bty2).map (fun c => c.pushHead (p.substBound e))
  | .strgRef l1, .strgRef l2 =>
    if l1 = l2 then some c else none
  | .weakRef t1, .weakRef t2 => do
    let c ← subtyping V c t1 t2
    subtyping V c t2 t1
  | .shrRef t1, .shrRef t2 => subtyping V c t1 t2
  | _, .uninit => some c
  | .param n1, .param n2 =>
    if n1 = n2 then some c else none
  | _, _ => none
termination_by 3 * (tsize ty1 + tsize ty2)
decreasing_by
  all_goals simp [tsize] <;> omega

/-- `ConstraintGen::bty_subtyping` (lines 105–124). -/
def btySubtyping (V : Nat → List Variance) (c : Cursor) (b1 b2 : BaseTy) : Option Cursor :=
  match b1, b2 with
  | .int w1, .int w2 => if w1 = w2 then some c else none
  | .uint w1, .uint w2 => if w1 = w2 then some c else none
  | .bool, .bool => some c
  | .adt d1 s1, .adt d2 s2 =>
    if d1 = d2 ∧ s1.length = s2.length then
      polySubtypingList V c (zip3 (V d1) s1 s2)
    else none
  | _, _ => none
termination_by 3 * (bsize b1 + bsize b2) + 1
decreasing_by
  simp [bsize]
  have h := pairsSize_zip3_le (V d1) s1 s2
  omega

/-- The loop over `izip!(variances, substs1, substs2)` calling
`ConstraintGen::polymorphic_subtyping` (lines 126–140) on each triple. -/
def polySubtypingList (V : Nat → List Variance) (c : Cursor) :
    (l : List (Variance × Ty × Ty)) → Option Cursor
  | [] => some c
  | (v, t1, t2) :: rest =>
    match v with
    | .covariant => do
      let c ← subtyping V c t1 t2
      polySubtypingList V c rest
    | .invariant => do
      let c ← subtyping V c t1 t2
      let c ← subtyping V c t2 t1
      polySubtypingList V c rest
    | .contravariant => do
      let c ← subtyping V c t2 t1
      polySubtypingList V c rest
    | .bivariant => polySubtypingList V c rest
termination_by l => 3 * pairsSize l + 2
decreasing_by
  all_goals
    have h1 := tsize_pos t1
    have h2 := tsize_pos t2
    simp [pairsSize]
    omega
end

/-! Unfolding equations for `subtyping`, `btySubtyping` and `polySubtypingList`
(one per match arm that the proofs below step through). -/

theorem subtyping_refine_refine (V : Nat → List Variance) (c : Cursor)
    (b1 : BaseTy) (e1 : Expr) (b2 : BaseTy) (e2 : Expr) :
    subtyping V c (.refine b1 e1) (.refine b2 e2) =
      if e1 = e2 then btySubtyping V c b1 b2
      else (btySubtyping V c b1 b2).map
        (fun c => c.pushHead (.expr (.binaryOp .eq e1 e2))) := by
  rw [subtyping.eq_def]

theorem subtyping_exist_exist (V : Nat → List Variance) (c : Cursor)
    (b1 : BaseTy) (p1 : Pred) (b2 : BaseTy) (p2 : Pred) :
    subtyping V c (.exist b1 p1) (.exist b2 p2) =
      if p1 = p2 then btySubtyping V c b1 b2
      else
        subtyping V
          ((c.pushBinding (fun fresh => p1.substBound (.var (.free fresh)))).1)
          (.refine b1 (.var (.free c.fresh))) (.exist b2 p2) := by
  rw [subtyping.eq_def]

theorem subtyping_strgRef_strgRef (V : Nat → List Variance) (c : Cursor)
    (l1 l2 : Nat) :
    subtyping V c (.strgRef l1) (.strgRef l2) =
      if l1 = l2 then some c else none := by
  rw [subtyping.eq_def]

theorem subtyping_weakRef_weakRef (V : Nat → List Variance) (c : Cursor)
    (t1 t2 : Ty) :
    subtyping V c (.weakRef t1) (.weakRef t2) =
      (subtyping V c t1 t2).bind (fun c => subtyping V c t2 t1) := by
  rw [subtyping.eq_def]; rfl

theorem subtyping_shrRef_shrRef (V : Nat → List Variance) (c : Cursor)
    (t1 t2 : Ty) :
    subtyping V c (.shrRef t1) (.shrRef t2) = subtyping V c t1 t2 := by
  rw [subtyping.eq_def]

theorem subtyping_uninit_uninit (V : Nat → List Variance) (c : Cursor) :
    subtyping V c .uninit .uninit = some c := by
  rw [subtyping.eq_def]

theorem subtyping_param_param (V : Nat → List Variance) (c : Cursor)
    (n1 n2 : Nat) :
    subtyping V c (.param n1) (.param n2) =
      if n1 = n2 then some c else none := by
  rw [subtyping.eq_def]

theorem btySubtyping_int_int (V : Nat → List Variance) (c : Cursor) (w1 w2 : Nat) :
    btySubtyping V c (.int w1) (.int w2) = if w1 = w2 then some c else none := by
  rw [btySubtyping.eq_def]

theorem btySubtyping_uint_uint (V : Nat → List Variance) (c : Cursor) (w1 w2 : Nat) :
    btySubtyping V c (.uint w1) (.uint w2) = if w1 = w2 then some c else none := by
  rw [btySubtyping.eq_def]

theorem btySubtyping_bool_bool (V : Nat → List Variance) (c : Cursor) :
    btySubtyping V c .bool .bool = some c := by
  rw [btySubtyping.eq_def]

theorem btySubtyping_adt_adt (V : Nat → List Variance) (c : Cursor)
    (d1 : Nat) (s1 : List Ty) (d2 : Nat) (s2 : List Ty) :
    btySubtyping V c (.adt d1 s1) (.adt d2 s2) =
      if d1 = d2 ∧ s1.length = s2.length then
        polySubtypingList V c (zip3 (V d1) s1 s2)
      else none := by
  rw [btySubtyping.eq_def]

theorem polySubtypingList_nil (V : Nat → List Variance) (c : Cursor) :
    polySubtypingList V c [] = some c := by
  rw [polySubtypingList.eq_def]

theorem polySubtypingList_cons (V : Nat → List Variance) (c : Cursor)
    (v : Variance) (t1 t2 : Ty) (rest : List (Variance × Ty × Ty)) :
    polySubtypingList V c ((v, t1, t2) :: rest) =
      match v with
      | .covariant =>
        (subtyping V c t1 t2).bind (fun c => polySubtypingList V c rest)
      | .invariant =>
        (subtyping V c t1 t2).bind (fun c =>
          (subtyping V c t2 t1).bind (fun c => polySubtypingList V c rest))
      | .contravariant =>
        (subtyping V c t2 t1).bind (fun c => polySubtypingList V c rest)
      | .bivariant => polySubtypingList V c rest := by
  rw [polySubtypingList.eq_def]; rfl

theorem subtyping_refl_aux : ∀ k : Nat,
    (∀ ty V c, 6 * tsize ty ≤ k → subtyping V c ty ty = some c) ∧
    (∀ b V c, 6 * bsize b + 1 ≤ k → btySubtyping V c b b = some c) ∧
    (∀ vs s V c, 6 * tsizeList s + 2 ≤ k →
      polySubtypingList V c (zip3 vs s s) = some c) := by
  intro k
  induction k using Nat.strong_induction_on with
  | _ k IH =>
    refine ⟨?_, ?_, ?_⟩
    · intro ty V c hle
      match ty with
      | .refine bty e =>
        simp only [tsize] at hle
        rw [subtyping_refine_refine, if_pos rfl]
        exact (IH (k - 1) (by omega)).2.1 bty V c (by omega)
      | .exist bty p =>
        simp only [tsize] at hle
        rw [subtyping_exist_exist, if_pos rfl]
        exact (IH (k - 1) (by omega)).2.1 bty V c (by omega)
      | .strgRef l => rw [subtyping_strgRef_strgRef, if_pos rfl]
      | .weakRef t =>
        simp only [tsize] at hle
        have h := (IH (k - 1) (by omega)).1 t V c (by omega)
        rw [subtyping_weakRef_weakRef, h, Option.some_bind, h]
      | .shrRef t =>
        simp only [tsize] at hle
        rw [subtyping_shrRef_shrRef]
        exact (IH (k - 1) (by omega)).1 t V c (by omega)
      | .uninit => exact subtyping_uninit_uninit V c
      | .param n => rw [subtyping_param_param, if_pos rfl]
    · intro b V c hle
      match b with
      | .int w => rw [btySubtyping_int_int, if_pos rfl]
      | .uint w => rw [btySubtyping_uint_uint, if_pos rfl]
      | .bool => exact btySubtyping_bool_bool V c
      | .adt d s =>
        simp only [bsize] at hle
        rw [btySubtyping_adt_adt, if_pos ⟨rfl, rfl⟩]
        exact (IH (k - 1) (by omega)).2.2 (V d) s V c (by omega)
    · intro vs s V c hle
      match vs, s with
      | [], _ => cases s <;> (rw [zip3.eq_def]; exact polySubtypingList_nil V c)
      | _ :: _, [] => rw [zip3.eq_def]; exact polySubtypingList_nil V c
      | v :: vs, t :: s =>
        have h1 := tsize_pos t
        simp only [tsizeList] at hle
        rw [zip3, polySubtypingList_cons]
        have hty := fun c => (IH (k - 1) (by omega)).1 t V c (by omega)
        have hrest := fun c => (IH (k - 1) (by omega)).2.2 vs s V c (by omega)
        cases v <;> simp only [hty, hrest, Option.some_bind]

/-- C7: For every well-formed refinement type `ty` of the `liquid-rust`
generation, `subtyping(ty, ty)` succeeds and emits no obligation at all: the
cursor (bindings, path condition, and proof obligations) is returned unchanged.
Syntactically equal refinement indices and equal existential predicates are
short-circuited without generating any predicate obligation. -/
theorem subtyping_self_emits_nothing (ty : Ty) (V : Nat → List Variance) (c : Cursor) :
    subtyping V c ty ty = some c :=
  (subtyping_refl_aux (6 * tsize ty)).1 ty V c le_rfl

/-! ### The CFG checker (`liquid-rust-typeck/src/checker.rs`) -/

/-- `Checker::check_assert` (checker.rs lines 371–394).  The condition
operand's type (as computed by `check_operand`) is passed in directly; place
lookup lives in `type_env.rs`, outside the engine embedded here.  The asserted
condition (negated when `expected` is false) is pushed with `push_pred` — an
assumption — and checking is dispatched to the single target block.  A
non-boolean condition type is `unreachable!`. -/
def checkAssert (c : Cursor) (condTy : Ty) (expected : Bool) (target : Nat) :
    Option (Cursor × Nat) :=
  match condTy with
  | .refine .bool e =>
    let assert := if expected then e else e.not
    some (c.pushPred (.expr assert), target)
  | _ => none

/-- Modelled from the spec: `Expr::from_bits` (in `liquid-rust-typeck/src/ty.rs`,
not part of the engine sources) builds the constant of the given base type from
the branch's bit pattern ("equality with the branch's constant"). -/
def exprFromBits (_bty : BaseTy) (bits : Nat) : Expr := .constant bits

/-- The closure `mk` of `Checker::check_switch_int` (checker.rs lines 404–416):
the branch condition for bit pattern `bits` — for a boolean discriminant the
refinement or its negation, for an integer discriminant equality with the
branch's constant; any other discriminant type is `unreachable!`. -/
def mkDiscrPred (discrTy : Ty) (bits : Nat) : Option Expr :=
  match discrTy with
  | .refine .bool e => some (if bits ≠ 0 then e else e.not)
  | .refine (.int w) e => some (.binaryOp .eq e (exprFromBits (.int w) bits))
  | .refine (.uint w) e => some (.binaryOp .eq e (exprFromBits (.uint w) bits))
  | _ => none

/-- `Iterator::reduce` with a binary operation, as used on the negated branch
conditions (checker.rs lines 423–426). -/
def reduceExpr (f : Expr → Expr → Expr) : List Expr → Option Expr
  | [] => none
  | e :: es => some (es.foldl f e)

/-- Collect the results of an optional-valued computation over a list, failing
if any element fails (the effect of the source's `for` loop /
`Iterator::collect` over fallible branch conditions). -/
def mapOpt {α β : Type} (f : α → Option β) : List α → Option (List β)
  | [] => some []
  | a :: l => (f a).bind (fun b => (mapOpt f l).map (b :: ·))

/-- `Checker::check_switch_int` (checker.rs lines 396–434).  Returns the list
of dispatches `(cursor, target)` handed to `check_goto`: each explicit target
is dispatched in a separate breadcrumb of the cursor extended with its own
branch condition; the `otherwise` target is dispatched on the parent cursor,
extended with the conjunction (`reduce` with `And`) of the negations of all
explicit branch conditions when there is at least one explicit target. -/
def checkSwitchInt (c : Cursor) (discrTy : Ty) (targets : List (Nat × Nat))
    (otherwiseBB : Nat) : Option (List (Cursor × Nat)) :=
  (mapOpt (fun p =>
      (mkDiscrPred discrTy p.1).map
        (fun cond => (c.pushPred (.expr cond), p.2))) targets).bind
    (fun explicit =>
      (mapOpt (fun p => (mkDiscrPred discrTy p.1).map Expr.not) targets).map
        (fun negs =>
          let c :=
            match reduceExpr (fun e1 e2 => .binaryOp .and e1 e2) negs with
            | some otherwise => c.pushPred (.expr otherwise)
            | none => c
          explicit ++ [(c, otherwiseBB)]))

theorem mapOpt_map_of_mapOpt_some {α β γ : Type} (f : α → Option β) (g : α → β → γ) :
    ∀ (l : List α) (bs : List β), mapOpt f l = some bs →
      mapOpt (fun a => (f a).map (g a)) l =
        some (List.zipWith (fun b a => g a b) bs l) := by
  intro l
  induction l with
  | nil =>
    intro bs h
    simp only [mapOpt, Option.some.injEq] at h
    subst h
    rfl
  | cons a l ih =>
    intro bs h
    simp only [mapOpt] at h ⊢
    cases hfa : f a with
    | none => simp [hfa] at h
    | some b =>
      rw [hfa] at h
      simp only [Option.some_bind] at h
      cases hml : mapOpt f l with
      | none => simp [hml] at h
      | some bs' =>
        rw [hml] at h
        simp only [Option.map_some', Option.some.injEq] at h
        subst h
        rw [Option.map_some', Option.some_bind, ih bs' hml, Option.map_some']
        rfl

theorem length_of_mapOpt_some {α β : Type} (f : α → Option β) :
    ∀ (l : List α) (bs : List β), mapOpt f l = some bs → bs.length = l.length := by
  intro l
  induction l with
  | nil =>
    intro bs h
    simp only [mapOpt, Option.some.injEq] at h
    subst h
    rfl
  | cons a l ih =>
    intro bs h
    simp only [mapOpt] at h
    cases hfa : f a with
    | none => simp [hfa] at h
    | some b =>
      rw [hfa] at h
      simp only [Option.some_bind] at h
      cases hml : mapOpt f l with
      | none => simp [hml] at h
      | some bs' =>
        rw [hml] at h
        simp only [Option.map_some', Option.some.injEq] at h
        subst h
        simp [ih bs' hml]

theorem zipWith_const_left {α β γ : Type} (g : β → γ) :
    ∀ (bs : List β) (l : List α), bs.length ≤ l.length →
      List.zipWith (fun b _ => g b) bs l = bs.map g := by
  intro bs
  induction bs with
  | nil => intro l _; simp
  | cons b bs ih =>
    intro l hl
    cases l with
    | nil => simp at hl
    | cons a l => simp only [List.zipWith, List.map]; rw [ih l (by simpa using hl)]

/-- C5: for every `SwitchInt` with at least one explicit target (the condition
list is `c0 :: conds`), every explicit target is dispatched on its own
breadcrumb cursor extended with exactly its branch condition, and the
`otherwise` target is dispatched on the cursor extended with exactly the
left-associated conjunction of the negations of all explicit branch
conditions. -/
theorem checkSwitchInt_otherwise_neg_conj (c : Cursor) (dty : Ty)
    (targets : List (Nat × Nat)) (obb : Nat) (c0 : Expr) (conds : List Expr)
    (hc : mapOpt (fun p => mkDiscrPred dty p.1) targets = some (c0 :: conds)) :
    checkSwitchInt c dty targets obb =
      some
        (List.zipWith (fun cond p => (c.pushPred (.expr cond), p.2))
            (c0 :: conds) targets ++
          [(c.pushPred (.expr ((conds.map Expr.not).foldl
              (fun e1 e2 => .binaryOp .and e1 e2) c0.not)), obb)]) := by
  have h1 := mapOpt_map_of_mapOpt_some (fun p => mkDiscrPred dty p.1)
    (fun p cond => (c.pushPred (.expr cond), p.2)) targets (c0 :: conds) hc
  have h2 := mapOpt_map_of_mapOpt_some (fun p => mkDiscrPred dty p.1)
    (fun _ cond => cond.not) targets (c0 :: conds) hc
  have hlen := length_of_mapOpt_some (fun p => mkDiscrPred dty p.1) targets
    (c0 :: conds) hc
  match targets, hlen with
  | t0 :: ts, hlen =>
    simp only [List.length_cons, Nat.succ.injEq] at hlen
    rw [checkSwitchInt, h1, h2]
    simp only [Option.some_bind, Option.map_some', List.zipWith]
    rw [zipWith_const_left Expr.not conds ts (by omega)]
    rfl

/-- Witness for C5 at a concrete switch: a boolean discriminant with two
explicit targets and an otherwise target. -/
theorem checkSwitchInt_otherwise_neg_conj_witness :
    checkSwitchInt ⟨0, [], []⟩ (Ty.refine .bool (.var (.free 0))) [(0, 1), (1, 2)] 3 =
      some
        (List.zipWith
            (fun cond p => (Cursor.pushPred ⟨0, [], []⟩ (.expr cond), p.2))
            ((Expr.var (Var.free 0)).not :: [Expr.var (Var.free 0)]) [(0, 1), (1, 2)] ++
          [(Cursor.pushPred ⟨0, [], []⟩
              (.expr (([Expr.var (Var.free 0)].map Expr.not).foldl
                (fun e1 e2 => .binaryOp .and e1 e2) (Expr.var (Var.free 0)).not.not)), 3)]) :=
  checkSwitchInt_otherwise_neg_conj ⟨0, [], []⟩ (Ty.refine .bool (.var (.free 0)))
    [(0, 1), (1, 2)] 3 (Expr.var (Var.free 0)).not [Expr.var (Var.free 0)] rfl

/-- C10: for every `Assert` terminator with a boolean condition refinement
`e`, the checker pushes the asserted condition (negated when `expected` is
false) as an assumption (`push_pred`): the proof obligations (`heads`) and the
bindings are unchanged, the path condition is extended with exactly that one
predicate, and checking proceeds to the single target block. -/
theorem checkAssert_assumes_never_checks (c : Cursor) (e : Expr)
    (expected : Bool) (target : Nat) :
    ∃ c', checkAssert c (.refine .bool e) expected target = some (c', target) ∧
      c'.heads = c.heads ∧
      c'.preds = c.preds ++ [.expr (if expected then e else e.not)] ∧
      c'.fresh = c.fresh := by
  refine ⟨(c.pushPred (.expr (if expected then e else e.not))), ?_, rfl, rfl, rfl⟩
  cases expected <;> rfl

/-! ### Call checking and inference failure (`checker.rs`, `check_call`) -/

/-- `liquid_rust_common::errors::ErrorReported`. -/
inductive ErrorReported where
  | reported
  deriving DecidableEq, Repr

/-- The compiler session as seen by the checker: the spans at which
diagnostics have been emitted (`Session::span_err`). -/
structure Session where
  errors : List Nat
  deriving DecidableEq, Repr

/-- `Checker::report_inference_error` (checker.rs lines 601–605): emit the
diagnostic "inference error at function call" at the call's source span and
return `Err(ErrorReported)`. -/
def reportInferenceError (sess : Session) (callSpan : Nat) :
    Session × Except ErrorReported Unit :=
  ({ errors := sess.errors ++ [callSpan] }, .error .reported)

/-- `Checker::check_call` (checker.rs lines 300–369), from the point where the
existential system of the call is solved.  `inferResult` is the outcome of
`Subst::infer_from_fn_call` (which lives in `subst.rs`, outside the engine
sources): `none` when the collected existential-variable equations have no
consistent solution.  In that case the call check returns early through
`report_inference_error`; otherwise the remainder of the call check (`rest`,
parameter instantiation, argument subtyping and the dispatch to the
destination block) runs on the inferred substitution. -/
def checkCall {σ : Type} (sess : Session) (inferResult : Option σ)
    (srcSpan : Nat) (rest : σ → Session × Except ErrorReported Unit) :
    Session × Except ErrorReported Unit :=
  match inferResult with
  | none => reportInferenceError sess srcSpan
  | some subst => rest subst

/-- C2: whenever solving the call's existential-variable system fails, the
call check aborts: the error is reported exactly at the call site's span and
an `Err(ErrorReported)` result is returned (no panic, no silent success); the
rest of the call check never runs. -/
theorem checkCall_unsolved_aborts {σ : Type} (sess : Session) (srcSpan : Nat)
    (rest : σ → Session × Except ErrorReported Unit) :
    checkCall sess none srcSpan rest =
      ({ errors := sess.errors ++ [srcSpan] }, .error .reported) := rfl

/-! ### The fixpoint loop at join points (`checker.rs`, `check_goto` and
`Inference::check_goto_join_point`) -/

/-- Modelled from the spec: the coarse "shape" of one heap slot during the
inference pass — either a type kept precisely or a hole where the two sides of
a join disagree (§3 "Basic Block Environment / Shape"; §4.3 `join`:
"structurally matching types and weakening to existential/hole types where the
two sides disagree").  `TypeEnv::join` itself lives in `type_env.rs`, outside
the engine sources. -/
inductive ShapeTy where
  | precise (id : Nat)
  | hole
  deriving DecidableEq, Repr

/-- Modelled from the spec: join of two shapes — keep the type where both
sides agree, weaken to a hole where they disagree. -/
def joinShapeTy (a b : ShapeTy) : ShapeTy := if a = b then a else .hole

/-- Modelled from the spec: `TypeEnv::join` pointwise over the environment's
slots; the result replaces the stored environment.  Returns the joined
environment; the source's `join` additionally reports whether the stored
environment changed, which is `joinEnv old new ≠ old` here. -/
def joinEnv (old new : List ShapeTy) : List ShapeTy :=
  List.zipWith joinShapeTy old new

/-- `Inference::check_goto_join_point` (checker.rs lines 619–634): on first
arrival (vacant entry) the arriving environment is stored and a change is
reported; on later arrivals the arriving environment is joined into the stored
one and a change is reported exactly when the stored environment changed. -/
def checkGotoJoinPointInf (stored : Option (List ShapeTy))
    (env : List ShapeTy) : Option (List ShapeTy) × Bool :=
  match stored with
  | none => (some env, true)
  | some old => (some (joinEnv old env), decide (joinEnv old env ≠ old))

/-- The per-join-point state of `Checker::check_goto` (checker.rs lines
436–455): the stored block environment and the number of times the target has
been queued (`queue.insert(target)`, which also clears the visited mark). -/
structure JoinPointState where
  stored : Option (List ShapeTy)
  requeues : Nat
  deriving DecidableEq, Repr

/-- One arrival at a join-point target through `Checker::check_goto`: the
target is re-queued (and its visited mark cleared) exactly when
`check_goto_join_point` reports a change. -/
def checkGotoJoin (s : JoinPointState) (env : List ShapeTy) : JoinPointState :=
  let r := checkGotoJoinPointInf s.stored env
  { stored := r.1, requeues := s.requeues + (if r.2 then 1 else 0) }

/-- A sequence of arrivals at one join point during the worklist loop. -/
def runArrivals (s : JoinPointState) : List (List ShapeTy) → JoinPointState
  | [] => s
  | e :: es => runArrivals (checkGotoJoin s e) es

/-- Number of holes in a shape environment: the potential that strictly
increases at every re-queueing join. -/
def holes (l : List ShapeTy) : Nat := (l.filter (fun x => x = ShapeTy.hole)).length

theorem holes_le_length (l : List ShapeTy) : holes l ≤ l.length :=
  List.length_filter_le _ l

theorem length_joinEnv (o e : List ShapeTy) (h : o.length = e.length) :
    (joinEnv o e).length = o.length := by
  simp [joinEnv, h]

theorem holes_cons (x : ShapeTy) (l : List ShapeTy) :
    holes (x :: l) = (if x = ShapeTy.hole then 1 else 0) + holes l := by
  unfold holes
  rw [List.filter_cons]
  by_cases hx : x = ShapeTy.hole
  · simp [hx]; omega
  · simp [hx]

theorem holes_joinEnv_ge : ∀ o e : List ShapeTy, o.length ≤ e.length →
    holes o ≤ holes (joinEnv o e) := by
  intro o
  induction o with
  | nil => intro e _; simp [joinEnv, holes]
  | cons a o ih =>
    intro e hlen
    cases e with
    | nil => simp at hlen
    | cons b e =>
      have hlen' : o.length ≤ e.length := by
        simp only [List.length_cons] at hlen; omega
      have hrec := ih e hlen'
      show holes (a :: o) ≤ holes (joinShapeTy a b :: joinEnv o e)
      rw [holes_cons, holes_cons]
      have hhead : (if a = ShapeTy.hole then 1 else 0) ≤
          (if joinShapeTy a b = ShapeTy.hole then 1 else 0) := by
        unfold joinShapeTy
        by_cases hab : a = b
        · rw [if_pos hab]
        · rw [if_neg hab]
          by_cases ha : a = ShapeTy.hole <;> simp [ha]
      omega

theorem holes_joinEnv_strict : ∀ o e : List ShapeTy, o.length ≤ e.length →
    joinEnv o e ≠ o → holes o < holes (joinEnv o e) := by
  intro o
  induction o with
  | nil => intro e _ hne; simp [joinEnv] at hne
  | cons a o ih =>
    intro e hlen hne
    cases e with
    | nil => simp at hlen
    | cons b e =>
      have hlen' : o.length ≤ e.length := by
        simp only [List.length_cons] at hlen; omega
      have hcons : joinEnv (a :: o) (b :: e) = joinShapeTy a b :: joinEnv o e := rfl
      rw [hcons] at hne ⊢
      rw [holes_cons, holes_cons]
      by_cases hab : a = b
      · subst hab
        have hja : joinShapeTy a a = a := by unfold joinShapeTy; rw [if_pos rfl]
        rw [hja] at hne ⊢
        have hne2 : joinEnv o e ≠ o := fun heq => hne (by rw [heq])
        have := ih e hlen' hne2
        omega
      · have hja : joinShapeTy a b = ShapeTy.hole := by
          unfold joinShapeTy; rw [if_neg hab]
        rw [hja] at hne ⊢
        by_cases ha : a = ShapeTy.hole
        · subst ha
          have hne2 : joinEnv o e ≠ o := fun heq => hne (by rw [heq])
          have := ih e hlen' hne2
          norm_num
          omega
        · have hge := holes_joinEnv_ge o e hlen'
          have e1 : (if a = ShapeTy.hole then (1:Nat) else 0) = 0 := if_neg ha
          have e2 : (if ShapeTy.hole = ShapeTy.hole then (1:Nat) else 0) = 1 :=
            if_pos rfl
          rw [e1, e2]
          omega

theorem runArrivals_requeues_le (n : Nat) :
    ∀ (arrivals : List (List ShapeTy)) (o : List ShapeTy) (r : Nat),
      (∀ e ∈ arrivals, e.length = n) → o.length = n →
      (runArrivals ⟨some o, r⟩ arrivals).requeues ≤ r + (n - holes o) := by
  intro arrivals
  induction arrivals with
  | nil => intro o r _ _; exact Nat.le_add_right r _
  | cons e es ih =>
    intro o r hall hlen
    have hel : e.length = n := hall e (List.mem_cons_self e es)
    have hall' : ∀ x ∈ es, x.length = n := fun x hx => hall x (List.mem_cons_of_mem e hx)
    show (runArrivals (checkGotoJoin ⟨some o, r⟩ e) es).requeues ≤ r + (n - holes o)
    by_cases hch : joinEnv o e = o
    · have hstep : checkGotoJoin ⟨some o, r⟩ e = ⟨some o, r⟩ := by
        simp [checkGotoJoin, checkGotoJoinPointInf, hch]
      rw [hstep]
      exact ih o r hall' hlen
    · have hstep : checkGotoJoin ⟨some o, r⟩ e = ⟨some (joinEnv o e), r + 1⟩ := by
        simp [checkGotoJoin, checkGotoJoinPointInf, hch]
      rw [hstep]
      have hlenj : (joinEnv o e).length = n := by
        rw [length_joinEnv o e (by omega)]; exact hlen
      have hstrict := holes_joinEnv_strict o e (by omega) hch
      have hle := holes_le_length (joinEnv o e)
      rw [hlenj] at hle
      have hrec := ih (joinEnv o e) (r + 1) hall' hlenj
      omega

/-- C9: at every join-point target, over any sequence of arriving environments
of a fixed width `n` (one slot per live location), the worklist re-queues the
target at most `n + 1` times: the first arrival stores the environment, and
each later re-queue happens only when the join actually changed the stored
environment, which strictly increases the number of holes — a potential
bounded by the environment's width (the shape-lattice height at this program
point).  Summed over a procedure this gives the "number of blocks × lattice
height" bound of the fixpoint loop. -/
theorem join_point_requeues_bounded (n : Nat) (arrivals : List (List ShapeTy))
    (h : ∀ e ∈ arrivals, e.length = n) :
    (runArrivals ⟨none, 0⟩ arrivals).requeues ≤ n + 1 := by
  cases arrivals with
  | nil => exact Nat.zero_le _
  | cons e es =>
    have hel : e.length = n := h e (List.mem_cons_self e es)
    have hall : ∀ x ∈ es, x.length = n := fun x hx => h x (List.mem_cons_of_mem e hx)
    show (runArrivals (checkGotoJoin ⟨none, 0⟩ e) es).requeues ≤ n + 1
    have hstep : checkGotoJoin ⟨none, 0⟩ e = ⟨some e, 1⟩ := rfl
    rw [hstep]
    have := runArrivals_requeues_le n es e 1 hall hel
    omega

/-- Witness for C9 at a concrete join point: three arrivals over two slots. -/
theorem join_point_requeues_bounded_witness :
    (runArrivals ⟨none, 0⟩
        [[ShapeTy.precise 1, ShapeTy.precise 2],
         [ShapeTy.precise 1, ShapeTy.precise 3],
         [ShapeTy.precise 5, ShapeTy.precise 6]]).requeues ≤ 2 + 1 :=
  join_point_requeues_bounded 2
    [[ShapeTy.precise 1, ShapeTy.precise 2],
     [ShapeTy.precise 1, ShapeTy.precise 3],
     [ShapeTy.precise 5, ShapeTy.precise 6]] (by decide)

end LR

/-! ## Part 2: the `flux-refineck` generation (`FX`)

Term grammar and inference machinery reconstructed from
`flux-refineck/src/constraint_gen.rs`.  Names, sorts, def-ids, spans and
evar-context ids are natural numbers. -/

namespace FX

/-- `rty::evars::EVarCxId` paired with the evar's id: an existential variable
is identified by a monotonically increasing id plus its owning inference
context. -/
structure EVar where
  cx : Nat
  id : Nat
  deriving DecidableEq, Repr

/-- A variable as it can appear in head position (`Expr::to_var`,
`Expr::app`): free, bound, or existential. -/
inductive FVar where
  | free (n : Nat)
  | bvar (i : Nat)
  | evar (ev : EVar)
  deriving DecidableEq, Repr

/-- Binary operators; only `Eq` (and `And`) are built explicitly by the
constraint generator. -/
inductive BinOp where
  | eq
  | and
  | other (code : Nat)
  deriving DecidableEq, Repr

/-- `rty::Expr` as used by the constraint generator: variables (free, bound,
existential), constants, operators and application of a variable to
arguments. -/
inductive Expr where
  | var (v : FVar)
  | constant (c : Nat)
  | binaryOp (op : BinOp) (e1 e2 : Expr)
  | unaryOp (code : Nat) (e : Expr)
  | app (f : FVar) (args : List Expr)

mutual
/-- Structural equality on expressions (Rust's derived `PartialEq`). -/
def Expr.beq : Expr → Expr → Bool
  | .var v1, .var v2 => v1 == v2
  | .constant c1, .constant c2 => c1 == c2
  | .binaryOp o1 a1 b1, .binaryOp o2 a2 b2 =>
    o1 == o2 && Expr.beq a1 a2 && Expr.beq b1 b2
  | .unaryOp k1 e1, .unaryOp k2 e2 => k1 == k2 && Expr.beq e1 e2
  | .app f1 as1, .app f2 as2 => f1 == f2 && Expr.beqList as1 as2
  | _, _ => false

/-- Pointwise structural equality of expression lists. -/
def Expr.beqList : List Expr → List Expr → Bool
  | [], [] => true
  | e1 :: l1, e2 :: l2 => Expr.beq e1 e2 && Expr.beqList l1 l2
  | _, _ => false
end

instance : BEq Expr := ⟨Expr.beq⟩

/-- `Expr::evar`. -/
def Expr.evar (ev : EVar) : Expr := .var (.evar ev)

/-- `Expr::to_var`. -/
def Expr.toVar : Expr → Option FVar
  | .var v => some v
  | _ => none

mutual
/-- `Binders::replace_bvars`-style substitution at the expression level: every
bound variable `bvar i` is replaced by `σ i`.  Substitution does not descend
into head position (the folding framework rebuilds `ExprKind::App` with the
same `func`), and it stops at nested binders (which bind their own
variables). -/
def Expr.substBvars (σ : Nat → Expr) : Expr → Expr
  | .var (.bvar i) => σ i
  | .var v => .var v
  | .constant c => .constant c
  | .binaryOp op e1 e2 => .binaryOp op (e1.substBvars σ) (e2.substBvars σ)
  | .unaryOp code e => .unaryOp code (e.substBvars σ)
  | .app f args => .app f (Expr.substBvarsList σ args)

/-- Substitution mapped over an argument list. -/
def Expr.substBvarsList (σ : Nat → Expr) : List Expr → List Expr
  | [] => []
  | e :: es => e.substBvars σ :: Expr.substBvarsList σ es
end

mutual
/-- The free variable names of an expression: every `Var::Free` occurrence,
including in head position and under a lambda's body. -/
def Expr.fvarNames : Expr → List Nat
  | .var (.free n) => [n]
  | .var _ => []
  | .constant _ => []
  | .binaryOp _ e1 e2 => e1.fvarNames ++ e2.fvarNames
  | .unaryOp _ e => e.fvarNames
  | .app f args =>
    (match f with
     | .free n => [n]
     | _ => []) ++ Expr.fvarNamesList args

/-- Free variable names of an argument list. -/
def Expr.fvarNamesList : List Expr → List Nat
  | [] => []
  | e :: es => e.fvarNames ++ Expr.fvarNamesList es
end

/-- `rty::RefineArg`: a refinement argument is an expression or an abstraction
(`RefineArg::Abs(Binders<Expr>)`) with its parameter sorts. -/
inductive RefineArg where
  | expr (e : Expr)
  | abs (params : List Nat) (body : Expr)

/-- Structural equality on refinement arguments (Rust's derived
`PartialEq`). -/
def RefineArg.beq : RefineArg → RefineArg → Bool
  | .expr e1, .expr e2 => e1 == e2
  | .abs p1 b1, .abs p2 b2 => p1 == p2 && b1 == b2
  | _, _ => false

instance : BEq RefineArg := ⟨RefineArg.beq⟩

/-- Substitution of bound variables inside a refinement argument; an
abstraction binds its own variables, so substitution stops there. -/
def RefineArg.substBvars (σ : Nat → Expr) : RefineArg → RefineArg
  | .expr e => .expr (e.substBvars σ)
  | .abs params body => .abs params body

/-- Free variable names of a refinement argument. -/
def RefineArg.fvarNames : RefineArg → List Nat
  | .expr e => e.fvarNames
  | .abs _ body => body.fvarNames

/-- An obligation recorded in the refinement tree: a predicate to be implied
by the context (`check_pred`) or an implication between two predicates
(`check_impl`). -/
inductive Oblig where
  | pred (e : Expr)
  | impl (e1 e2 : Expr)

/-- The visible state of a `RefineCtxt`: the supply of fresh bound-variable
names (allocated sequentially by `define_var`), the assumed predicates
(`assume_pred`), and the recorded obligations (`check_pred` /
`check_impl`). -/
structure RCtxt where
  fresh : Nat
  assumptions : List Expr
  obligations : List Oblig

/-- `RefineCtxt::define_var`: bind a fresh variable and return its name. -/
def RCtxt.defineVar (r : RCtxt) : RCtxt × Nat :=
  ({ r with fresh := r.fresh + 1 }, r.fresh)

/-- `RefineCtxt::define_vars`: bind one fresh variable per parameter sort. -/
def RCtxt.defineVars (r : RCtxt) (params : List Nat) : RCtxt × List Nat :=
  ({ r with fresh := r.fresh + params.length },
    (List.range params.length).map (fun k => r.fresh + k))

/-- `RefineCtxt::assume_pred`. -/
def RCtxt.assumePred (r : RCtxt) (e : Expr) : RCtxt :=
  { r with assumptions := r.assumptions ++ [e] }

/-- `RefineCtxt::check_pred`: record a proof obligation. -/
def RCtxt.checkPred (r : RCtxt) (e : Expr) : RCtxt :=
  { r with obligations := r.obligations ++ [.pred e] }

/-- `RefineCtxt::check_impl`: record an implication obligation. -/
def RCtxt.checkImpl (r : RCtxt) (e1 e2 : Expr) : RCtxt :=
  { r with obligations := r.obligations ++ [.impl e1 e2] }

/-- Modelled from the spec: `RefineCtxt::scope` (refine_tree.rs) captures the
bound variables currently in scope.  Names are allocated sequentially, so the
scope at a point is the set of names below the current fresh counter. -/
def RCtxt.scope (r : RCtxt) : List Nat := List.range r.fresh

/-- The state of an `InferCtxt`: the insertion-ordered map from evar-context
ids to the scope captured when the context was opened
(`scopes: FxIndexMap<EVarCxId, Scope>`, used as a stack by
`push_scope`/`pop_scope`), the id supplies of `EVarGen`, and the unifications
recorded so far. -/
structure ICtxt where
  nextCx : Nat
  scopes : List (Nat × List Nat)
  nextEvarId : Nat
  solutions : List (EVar × RefineArg)

/-- `InferCtxt::push_scope` (constraint_gen.rs lines 281–283): open a new
evar context whose captured scope is the refinement context's current
scope. -/
def ICtxt.pushScope (i : ICtxt) (r : RCtxt) : ICtxt :=
  { i with nextCx := i.nextCx + 1, scopes := i.scopes ++ [(i.nextCx, r.scope)] }

/-- `InferCtxt::pop_scope` (constraint_gen.rs lines 285–287). -/
def ICtxt.popScope (i : ICtxt) : ICtxt :=
  { i with scopes := i.scopes.dropLast }

/-- `FxIndexMap` indexing `self.scopes[&evar.cx()]`: find the scope captured
for an evar context (a panic — `none` — if the context is unknown). -/
def ICtxt.lookupScope (i : ICtxt) (cx : Nat) : Option (List Nat) :=
  (i.scopes.find? (fun p => p.1 == cx)).map (fun p => p.2)

/-- Modelled from the spec: `EVarGen::unify` (rty/evars.rs) records the
unification of `ev` with the candidate argument ("an EVar denotes the
expression to be inferred here, unifiable with a concrete value visible in
its scope"). -/
def ICtxt.unify (i : ICtxt) (ev : EVar) (arg : RefineArg) (_replace : Bool) : ICtxt :=
  { i with solutions := i.solutions ++ [(ev, arg)] }

/-- `EVarGen::fresh_in_cx` for each bound variable of a binder
(`replace_bvars_with(|_| RefineArg::Expr(Expr::evar(self.fresh_evar())))`):
allocates one evar per parameter in the most recently pushed context
(`self.scopes.last().unwrap()`, a panic — `none` — on an empty stack). -/
def ICtxt.freshEvarsFor (i : ICtxt) (params : List Nat) :
    Option (ICtxt × (Nat → Expr)) :=
  match i.scopes.getLast? with
  | some (cx, _) =>
    some ({ i with nextEvarId := i.nextEvarId + params.length },
      fun k => Expr.evar ⟨cx, i.nextEvarId + k⟩)
  | none => none

/-- Modelled from the spec: `Scope::has_free_vars` (refine_tree.rs) — whether
the term contains a free variable that is outside the scope, i.e. was
introduced after the scope was captured ("an existential variable may only
unify with terms free of variables introduced after it"). -/
def hasFreeVars (scope : List Nat) (arg : RefineArg) : Bool :=
  arg.fvarNames.any (fun n => decide (n ∉ scope))

/-- `Scope::has_free_vars` on a bare expression (used by `unify_exprs`). -/
def hasFreeVarsE (scope : List Nat) (e : Expr) : Bool :=
  e.fvarNames.any (fun n => decide (n ∉ scope))

/-- `InferCtxt::unify_args` (constraint_gen.rs lines 516–524): when the
right-hand argument is an unresolved existential variable, look up the scope
captured for the evar's owning context; the unification is recorded only when
the candidate has no free variable outside that scope. -/
def unifyArgs (i : ICtxt) (arg1 arg2 : RefineArg) (replace : Bool) :
    Option ICtxt :=
  match arg2 with
  | .expr (.var (.evar ev)) =>
    match i.lookupScope ev.cx with
    | some scope =>
      if hasFreeVars scope arg1 then some i
      else some (i.unify ev arg1 replace)
    | none => none
  | _ => some i

/-- `InferCtxt::unify_exprs` (constraint_gen.rs lines 526–533). -/
def unifyExprs (i : ICtxt) (e1 e2 : Expr) (replace : Bool) : Option ICtxt :=
  match e2 with
  | .var (.evar ev) =>
    match i.lookupScope ev.cx with
    | some scope =>
      if hasFreeVarsE scope e1 then some i
      else some (i.unify ev (.expr e1) replace)
    | none => none
  | _ => some i

/-! ### The type grammar of `flux-middle`'s `rty` as used by the subtyping
engine. -/

inductive PtrKind where
  | shr
  | mut
  deriving DecidableEq, Repr

inductive RefKind where
  | shr
  | mut
  deriving DecidableEq, Repr

inductive Variance where
  | covariant | invariant | contravariant | bivariant
  deriving DecidableEq, Repr

/-- `rty::Path`: an abstract location plus field projections; compared
nominally. -/
structure Path where
  loc : Nat
  projection : List Nat
  deriving DecidableEq, Repr

/-- `rustc::ty::Const` (array lengths). -/
structure Const where
  val : Nat
  deriving DecidableEq, Repr

mutual
/-- `rty::BaseTy`. -/
inductive BaseTy where
  | int (w : Nat)
  | uint (w : Nat)
  | float (w : Nat)
  | bool
  | str
  | char
  | adt (did : Nat) (substs : List GenericArg)
  | slice (t : Ty)

/-- `rty::GenericArg`. -/
inductive GenericArg where
  | ty (t : Ty)
  | lifetime

/-- `rty::Ty` as matched by `InferCtxt::subtyping`.  An existential type
carries its binder's parameter sorts together with the bound base type, index
arguments (each with its `is_binder` flag) and guard predicate. -/
inductive Ty where
  | indexed (bty : BaseTy) (idxs : List (RefineArg × Bool))
  | exist (params : List Nat) (bty : BaseTy) (idxs : List (RefineArg × Bool)) (pred : Expr)
  | ptr (pk : PtrKind) (path : Path)
  | ref (rk : RefKind) (t : Ty)
  | tuple (ts : List Ty)
  | array (t : Ty) (len : Const)
  | uninit
  | param (n : Nat)
  | constr (pred : Expr) (t : Ty)
end

/-- Substitution of bound variables over the index arguments of an
indexed/existential type. -/
def substIdxs (σ : Nat → Expr) (idxs : List (RefineArg × Bool)) :
    List (RefineArg × Bool) :=
  idxs.map (fun p => (p.1.substBvars σ, p.2))

mutual
/-- `replace_bvars`-style substitution over base types. -/
def BaseTy.substBvars (σ : Nat → Expr) : BaseTy → BaseTy
  | .adt did substs => .adt did (GenericArg.substBvarsList σ substs)
  | .slice t => .slice (t.substBvars σ)
  | .int w => .int w
  | .uint w => .uint w
  | .float w => .float w
  | .bool => .bool
  | .str => .str
  | .char => .char

def GenericArg.substBvars (σ : Nat → Expr) : GenericArg → GenericArg
  | .ty t => .ty (t.substBvars σ)
  | .lifetime => .lifetime

def GenericArg.substBvarsList (σ : Nat → Expr) : List GenericArg → List GenericArg
  | [] => []
  | g :: gs => g.substBvars σ :: GenericArg.substBvarsList σ gs

/-- `replace_bvars`-style substitution over types; a nested existential binds
its own variables, so substitution stops there. -/
def Ty.substBvars (σ : Nat → Expr) : Ty → Ty
  | .indexed bty idxs => .indexed (bty.substBvars σ) (substIdxs σ idxs)
  | .exist params bty idxs pred => .exist params bty idxs pred
  | .ptr pk path => .ptr pk path
  | .ref rk t => .ref rk (t.substBvars σ)
  | .tuple ts => .tuple (Ty.substBvarsList σ ts)
  | .array t len => .array (t.substBvars σ) len
  | .uninit => .uninit
  | .param n => .param n
  | .constr pred t => .constr (pred.substBvars σ) (t.substBvars σ)

def Ty.substBvarsList (σ : Nat → Expr) : List Ty → List Ty
  | [] => []
  | t :: ts => t.substBvars σ :: Ty.substBvarsList σ ts
end

/-! Size measures over the type structure, ignoring expressions: the measure
the subtyping recursion descends on. -/

mutual
def tsizeF : Ty → Nat
  | .indexed bty _ => 1 + bsizeF bty
  | .exist _ bty _ _ => 2 + bsizeF bty
  | .ptr _ _ => 1
  | .ref _ t => 1 + tsizeF t
  | .tuple ts => 1 + tsizeListF ts
  | .array t _ => 1 + tsizeF t
  | .uninit => 1
  | .param _ => 1
  | .constr _ t => 1 + tsizeF t

def bsizeF : BaseTy → Nat
  | .adt _ substs => 1 + gsizeListF substs
  | .slice t => 1 + tsizeF t
  | .int _ => 1
  | .uint _ => 1
  | .float _ => 1
  | .bool => 1
  | .str => 1
  | .char => 1

def gsizeF : GenericArg → Nat
  | .ty t => 1 + tsizeF t
  | .lifetime => 1

def tsizeListF : List Ty → Nat
  | [] => 0
  | t :: ts => tsizeF t + tsizeListF ts

def gsizeListF : List GenericArg → Nat
  | [] => 0
  | g :: gs => gsizeF g + gsizeListF gs
end

theorem substBvars_size_eq : ∀ k : Nat,
    (∀ t : Ty, sizeOf t ≤ k → ∀ σ, tsizeF (t.substBvars σ) = tsizeF t) ∧
    (∀ b : BaseTy, sizeOf b ≤ k → ∀ σ, bsizeF (b.substBvars σ) = bsizeF b) ∧
    (∀ ts : List Ty, sizeOf ts ≤ k → ∀ σ,
      tsizeListF (Ty.substBvarsList σ ts) = tsizeListF ts) ∧
    (∀ gs : List GenericArg, sizeOf gs ≤ k → ∀ σ,
      gsizeListF (GenericArg.substBvarsList σ gs) = gsizeListF gs) := by
  intro k
  induction k using Nat.strong_induction_on with
  | _ k IH =>
    refine ⟨?_, ?_, ?_, ?_⟩
    · intro t hle σ
      match t with
      | .indexed bty idxs =>
        have hs : sizeOf bty < sizeOf (Ty.indexed bty idxs) := by
          simp <;> omega
        rw [Ty.substBvars]
        simp only [tsizeF]
        rw [(IH (k - 1) (by omega)).2.1 bty (by omega) σ]
      | .exist params bty idxs pred => rw [Ty.substBvars]
      | .ptr pk path => rw [Ty.substBvars]
      | .ref rk t =>
        have hs : sizeOf t < sizeOf (Ty.ref rk t) := by simp <;> omega
        rw [Ty.substBvars]
        simp only [tsizeF]
        rw [(IH (k - 1) (by omega)).1 t (by omega) σ]
      | .tuple ts =>
        have hs : sizeOf ts < sizeOf (Ty.tuple ts) := by simp <;> omega
        rw [Ty.substBvars]
        simp only [tsizeF]
        rw [(IH (k - 1) (by omega)).2.2.1 ts (by omega) σ]
      | .array t len =>
        have hs : sizeOf t < sizeOf (Ty.array t len) := by simp <;> omega
        rw [Ty.substBvars]
        simp only [tsizeF]
        rw [(IH (k - 1) (by omega)).1 t (by omega) σ]
      | .uninit => rw [Ty.substBvars]
      | .param n => rw [Ty.substBvars]
      | .constr pred t =>
        have hs : sizeOf t < sizeOf (Ty.constr pred t) := by simp <;> omega
        rw [Ty.substBvars]
        simp only [tsizeF]
        rw [(IH (k - 1) (by omega)).1 t (by omega) σ]
    · intro b hle σ
      match b with
      | .adt did substs =>
        have hs : sizeOf substs < sizeOf (BaseTy.adt did substs) := by simp <;> omega
        rw [BaseTy.substBvars]
        simp only [bsizeF]
        rw [(IH (k - 1) (by omega)).2.2.2 substs (by omega) σ]
      | .slice t =>
        have hs : sizeOf t < sizeOf (BaseTy.slice t) := by simp <;> omega
        rw [BaseTy.substBvars]
        simp only [bsizeF]
        rw [(IH (k - 1) (by omega)).1 t (by omega) σ]
      | .int w => rw [BaseTy.substBvars]
      | .uint w => rw [BaseTy.substBvars]
      | .float w => rw [BaseTy.substBvars]
      | .bool => rw [BaseTy.substBvars]
      | .str => rw [BaseTy.substBvars]
      | .char => rw [BaseTy.substBvars]
    · intro ts hle σ
      match ts with
      | [] => rw [Ty.substBvarsList]
      | t :: ts =>
        have h1 : sizeOf t < sizeOf (t :: ts) := by simp <;> omega
        have h2 : sizeOf ts < sizeOf (t :: ts) := by simp <;> omega
        rw [Ty.substBvarsList]
        simp only [tsizeListF]
        rw [(IH (k - 1) (by omega)).1 t (by omega) σ,
          (IH (k - 1) (by omega)).2.2.1 ts (by omega) σ]
    · intro gs hle σ
      match gs with
      | [] => rw [GenericArg.substBvarsList]
      | g :: gs =>
        have h1 : sizeOf g < sizeOf (g :: gs) := by simp <;> omega
        have h2 : sizeOf gs < sizeOf (g :: gs) := by simp <;> omega
        rw [GenericArg.substBvarsList]
        simp only [gsizeListF]
        match g with
        | .ty t =>
          have h3 : sizeOf t < sizeOf (GenericArg.ty t) := by simp <;> omega
          rw [GenericArg.substBvars]
          simp only [gsizeF]
          rw [(IH (k - 1) (by omega)).1 t (by omega) σ,
            (IH (k - 1) (by omega)).2.2.2 gs (by omega) σ]
        | .lifetime =>
          rw [GenericArg.substBvars]
          simp only [gsizeF]
          rw [(IH (k - 1) (by omega)).2.2.2 gs (by omega) σ]

theorem tsizeF_substBvars (t : Ty) (σ : Nat → Expr) :
    tsizeF (t.substBvars σ) = tsizeF t :=
  (substBvars_size_eq (sizeOf t)).1 t le_rfl σ

theorem bsizeF_substBvars (b : BaseTy) (σ : Nat → Expr) :
    bsizeF (b.substBvars σ) = bsizeF b :=
  (substBvars_size_eq (sizeOf b)).2.1 b le_rfl σ

theorem tsizeF_pos (t : Ty) : 1 ≤ tsizeF t := by
  cases t <;> simp [tsizeF] <;> omega

/-- The pairwise type size of zipped tuple components. -/
def tPairsSize : List (Ty × Ty) → Nat
  | [] => 0
  | (t1, t2) :: rest => tsizeF t1 + tsizeF t2 + tPairsSize rest

theorem tPairsSize_zip_le : ∀ ts1 ts2 : List Ty,
    tPairsSize (ts1.zip ts2) ≤ tsizeListF ts1 + tsizeListF ts2 := by
  intro ts1
  induction ts1 with
  | nil => intro ts2; simp [List.zip, tPairsSize]
  | cons t1 ts1 ih =>
    intro ts2
    cases ts2 with
    | nil => simp [List.zip, tPairsSize]
    | cons t2 ts2 =>
      have h := ih ts2
      show tPairsSize ((t1, t2) :: ts1.zip ts2) ≤ _
      simp only [tPairsSize, tsizeListF]
      omega

/-- `izip!(variances, substs1, substs2)` over generic arguments. -/
def zip3F : List Variance → List GenericArg → List GenericArg →
    List (Variance × GenericArg × GenericArg)
  | v :: vs, g1 :: gs1, g2 :: gs2 => (v, g1, g2) :: zip3F vs gs1 gs2
  | _, _, _ => []

/-- The pairwise size of variance-annotated generic-argument goals. -/
def gPairsSize : List (Variance × GenericArg × GenericArg) → Nat
  | [] => 0
  | (_, g1, g2) :: rest => gsizeF g1 + gsizeF g2 + gPairsSize rest

theorem gPairsSize_zip3F_le (vs : List Variance) :
    ∀ gs1 gs2, gPairsSize (zip3F vs gs1 gs2) ≤ gsizeListF gs1 + gsizeListF gs2 := by
  induction vs with
  | nil => intro gs1 gs2; cases gs1 <;> cases gs2 <;> simp [zip3F, gPairsSize]
  | cons v vs ih =>
    intro gs1 gs2
    cases gs1 with
    | nil => simp [zip3F, gPairsSize]
    | cons g1 gs1 =>
      cases gs2 with
      | nil => simp [zip3F, gPairsSize]
      | cons g2 gs2 =>
        have := ih gs1 gs2
        simp only [zip3F, gPairsSize, gsizeListF]
        omega

theorem gsizeF_pos (g : GenericArg) : 1 ≤ gsizeF g := by
  cases g <;> simp [gsizeF]

/-- `InferCtxt::refine_arg_subtyping` (constraint_gen.rs lines 469–514):
syntactically equal arguments are short-circuited; otherwise `unify_args` runs
first and then an equality obligation (expression vs expression) or a pair of
implication obligations (abstractions) is recorded.  A mixed
expression/abstraction pair whose expression is not a variable, and a pair of
abstractions with different parameter sorts, are fatal
(`unreachable!`/`debug_assert_eq!`). -/
def refineArgSubtyping (r : RCtxt) (i : ICtxt) (arg1 arg2 : RefineArg)
    (isBinder : Bool) : Option (RCtxt × ICtxt) :=
  if arg1 == arg2 then some (r, i)
  else
    match unifyArgs i arg1 arg2 isBinder with
    | none => none
    | some i =>
      match arg1, arg2 with
      | .expr e1, .expr e2 => some (r.checkPred (.binaryOp .eq e1 e2), i)
      | .abs params1 body1, .abs params2 body2 =>
        if params1 = params2 then
          let rn := r.defineVars params1
          let σ := fun k => Expr.var (.free (rn.2.getD k 0))
          let pred1 := body1.substBvars σ
          let pred2 := body2.substBvars σ
          some ((rn.1.checkImpl pred1 pred2).checkImpl pred2 pred1, i)
        else none
      | .expr e, .abs params body
      | .abs params body, .expr e =>
        match e.toVar with
        | some v =>
          let rn := r.defineVars params
          let σ := fun k => Expr.var (.free (rn.2.getD k 0))
          let pred1 := Expr.app v (rn.2.map (fun n => Expr.var (.free n)))
          let pred2 := body.substBvars σ
          some ((rn.1.checkImpl pred1 pred2).checkImpl pred2 pred1, i)
        | none => none

/-- The loop over `iter::zip(idxs1.args(), idxs2.args()).enumerate()` in the
indexed/indexed arm (constraint_gen.rs lines 357–359); each pair goes through
`refine_arg_subtyping` with the right-hand side's `is_binder` flag. -/
def refineArgsLoop (r : RCtxt) (i : ICtxt) :
    List ((RefineArg × Bool) × (RefineArg × Bool)) → Option (RCtxt × ICtxt)
  | [] => some (r, i)
  | (p1, p2) :: rest =>
    match refineArgSubtyping r i p1.1 p2.1 p2.2 with
    | none => none
    | some (r, i) => refineArgsLoop r i rest

mutual
/-- `InferCtxt::subtyping` (flux-refineck/src/constraint_gen.rs lines
345–406).  `G` is `GlobalEnv::variances_of`.  The refinement context `r`
collects fresh bindings, assumptions and obligations; the inference context
`i` collects evar scopes and unifications; `none` models a fatal
internal-consistency failure (`debug_assert_eq!` / `unreachable!`).  The
first arm is the source's leading `if let`: a left existential is unpacked by
binding fresh variables for its bound indices, assuming its guard, and
recursing on the resulting indexed type against the unchanged right-hand
side. -/
def subtypingF (G : Nat → List Variance) (r : RCtxt) (i : ICtxt)
    (ty1 ty2 : Ty) : Option (RCtxt × ICtxt) :=
  match ty1, ty2 with
  | .exist params bty idxs pred, ty2 =>
    let σ := fun k => Expr.var (.free (r.fresh + k))
    let r := { r with fresh := r.fresh + params.length }
    let r := r.assumePred (pred.substBvars σ)
    subtypingF G r i (.indexed (bty.substBvars σ) (substIdxs σ idxs)) ty2
  | .indexed bty1 idxs1, .indexed bty2 idxs2 =>
    match btySubtypingF G r i bty1 bty2 with
    | none => none
    | some (r, i) => refineArgsLoop r i (idxs1.zip idxs2)
  | .indexed bty1 idxs1, .exist params bty2 idxs2 pred =>
    let i := i.pushScope r
    match i.freshEvarsFor params with
    | none => none
    | some (i, σ) =>
      let r := r.checkPred (pred.substBvars σ)
      match subtypingF G r i (.indexed bty1 idxs1)
          (.indexed (bty2.substBvars σ) (substIdxs σ idxs2)) with
      | none => none
      | some (r, i) => some (r, i.popScope)
  | .ptr pk1 p1, .ptr pk2 p2 =>
    if pk1 = pk2 ∧ p1 = p2 then some (r, i) else none
  | .ref .mut t1, .ref .mut t2 =>
    match subtypingF G r i t1 t2 with
    | none => none
    | some (r, i) => subtypingF G r i t2 t1
  | .ref .shr t1, .ref .shr t2 => subtypingF G r i t1 t2
  | _, .uninit => some (r, i)
  | .param n1, .param n2 => if n1 = n2 then some (r, i) else none
  | .tuple ts1, .tuple ts2 =>
    if ts1.length = ts2.length then tupleLoopF G r i (ts1.zip ts2) else none
  | .array t1 len1, .array t2 len2 =>
    if len1.val = len2.val then subtypingF G r i t1 t2 else none
  | t1, .constr pred2 t2 => subtypingF G (r.checkPred pred2) i t1 t2
  | .constr pred1 t1, t2 => subtypingF G (r.assumePred pred1) i t1 t2
  | _, _ => none
termination_by 3 * (tsizeF ty1 + tsizeF ty2)
decreasing_by
  all_goals simp only [tsizeF, bsizeF_substBvars]
  all_goals try omega
  all_goals
    have h1 := tPairsSize_zip_le ts1 ts2
    omega

/-- `InferCtxt::bty_subtyping` (constraint_gen.rs lines 408–443). -/
def btySubtypingF (G : Nat → List Variance) (r : RCtxt) (i : ICtxt)
    (b1 b2 : BaseTy) : Option (RCtxt × ICtxt) :=
  match b1, b2 with
  | .int w1, .int w2 => if w1 = w2 then some (r, i) else none
  | .uint w1, .uint w2 => if w1 = w2 then some (r, i) else none
  | .adt d1 s1, .adt d2 s2 =>
    if d1 = d2 ∧ s1.length = s2.length then
      genericLoopF G r i (zip3F (G d1) s1 s2)
    else none
  | .float w1, .float w2 => if w1 = w2 then some (r, i) else none
  | .slice t1, .slice t2 => subtypingF G r i t1 t2
  | .bool, .bool => some (r, i)
  | .str, .str => some (r, i)
  | .char, .char => some (r, i)
  | _, _ => none
termination_by 3 * (bsizeF b1 + bsizeF b2) + 1
decreasing_by
  all_goals simp only [bsizeF]
  all_goals try omega
  all_goals
    have h1 := gPairsSize_zip3F_le (G d1) s1 s2
    omega

/-- The loop over `izip!(variances, substs1, substs2)` calling
`InferCtxt::generic_arg_subtyping` (constraint_gen.rs lines 419–421 and
445–467) on each triple. -/
def genericLoopF (G : Nat → List Variance) (r : RCtxt) (i : ICtxt) :
    (l : List (Variance × GenericArg × GenericArg)) → Option (RCtxt × ICtxt)
  | [] => some (r, i)
  | (v, .ty t1, .ty t2) :: rest =>
    match v with
    | .covariant =>
      match subtypingF G r i t1 t2 with
      | none => none
      | some (r, i) => genericLoopF G r i rest
    | .invariant =>
      match subtypingF G r i t1 t2 with
      | none => none
      | some (r, i) =>
        match subtypingF G r i t2 t1 with
        | none => none
        | some (r, i) => genericLoopF G r i rest
    | .contravariant =>
      match subtypingF G r i t2 t1 with
      | none => none
      | some (r, i) => genericLoopF G r i rest
    | .bivariant => genericLoopF G r i rest
  | (_, .lifetime, .lifetime) :: rest => genericLoopF G r i rest
  | _ => none
termination_by l => 3 * gPairsSize l + 2
decreasing_by
  all_goals simp only [gPairsSize, gsizeF]
  all_goals omega

/-- The loop over `iter::zip(tys1, tys2)` in the tuple arm (constraint_gen.rs
lines 386–391). -/
def tupleLoopF (G : Nat → List Variance) (r : RCtxt) (i : ICtxt) :
    (l : List (Ty × Ty)) → Option (RCtxt × ICtxt)
  | [] => some (r, i)
  | (t1, t2) :: rest =>
    match subtypingF G r i t1 t2 with
    | none => none
    | some (r, i) => tupleLoopF G r i rest
termination_by l => 3 * tPairsSize l + 2
decreasing_by
  all_goals simp only [tPairsSize]
  all_goals
    have h1 := tsizeF_pos t1
    have h2 := tsizeF_pos t2
    omega
end

/-- C1: scope discipline of existential-variable unification.  When
`unify_args` is asked to unify an existential variable owned by inference
context `cx` — whose captured scope is `scope` — with a candidate term:
(1) if the candidate contains a free variable outside `scope` (introduced
after the scope was captured), the inference context is returned unchanged —
no unification of that EVar is recorded; (2) if a unification was recorded, it
is exactly of this EVar with the candidate, and every free variable of the
candidate lies inside the captured scope. -/
theorem unifyArgs_scope_discipline (i : ICtxt) (arg1 : RefineArg) (ev : EVar)
    (replace : Bool) (scope : List Nat)
    (hs : i.lookupScope ev.cx = some scope) :
    ((∃ n ∈ arg1.fvarNames, n ∉ scope) →
        unifyArgs i arg1 (.expr (.var (.evar ev))) replace = some i) ∧
    (∀ i', unifyArgs i arg1 (.expr (.var (.evar ev))) replace = some i' →
        i'.solutions ≠ i.solutions →
        i'.solutions = i.solutions ++ [(ev, arg1)] ∧
          ∀ n ∈ arg1.fvarNames, n ∈ scope) := by
  constructor
  · rintro ⟨n, hn, hnot⟩
    rw [unifyArgs, hs]
    have hf : hasFreeVars scope arg1 = true := by
      rw [hasFreeVars, List.any_eq_true]
      refine ⟨n, hn, ?_⟩
      simpa using hnot
    dsimp only
    rw [if_pos hf]
  · intro i' hu hne
    rw [unifyArgs, hs] at hu
    dsimp only at hu
    by_cases hf : hasFreeVars scope arg1 = true
    · rw [if_pos hf] at hu
      cases hu
      exact absurd rfl hne
    · rw [if_neg hf] at hu
      cases hu
      refine ⟨rfl, ?_⟩
      intro n hn
      rw [hasFreeVars] at hf
      simp only [List.any_eq_true, decide_eq_true_eq, not_exists, not_and,
        not_not] at hf
      exact hf n hn

/-- Witness for C1: a candidate with the free variable `5`, outside the
captured scope `[0, 1]` of the evar's context, is not unified: the inference
context is unchanged. -/
theorem unifyArgs_scope_discipline_witness :
    unifyArgs ⟨1, [(0, [0, 1])], 0, []⟩ (.expr (.var (.free 5)))
        (.expr (.var (.evar ⟨0, 0⟩))) false =
      some ⟨1, [(0, [0, 1])], 0, []⟩ :=
  (unifyArgs_scope_discipline ⟨1, [(0, [0, 1])], 0, []⟩
      (.expr (.var (.free 5))) ⟨0, 0⟩ false [0, 1] rfl).1
    ⟨5, by simp [RefineArg.fvarNames, Expr.fvarNames], by decide⟩

/-- C4: for every subtyping check whose left-hand type is an existential, the
engine first unpacks it in the current context: it binds one fresh variable
per bound index of the existential (advancing the fresh-name supply by
`params.length`), assumes — does not check — the existential's guard predicate
(the obligation list is unchanged, the assumption list is extended with
exactly the substituted guard), and recurses on the resulting indexed type
against the unchanged right-hand type. -/
theorem subtypingF_exist_left_unpacks (G : Nat → List Variance) (r : RCtxt)
    (i : ICtxt) (params : List Nat) (bty : BaseTy)
    (idxs : List (RefineArg × Bool)) (pred : Expr) (ty2 : Ty) :
    subtypingF G r i (.exist params bty idxs pred) ty2 =
      subtypingF G
        { fresh := r.fresh + params.length,
          assumptions := r.assumptions ++
            [pred.substBvars (fun k => Expr.var (.free (r.fresh + k)))],
          obligations := r.obligations }
        i
        (.indexed (bty.substBvars (fun k => Expr.var (.free (r.fresh + k))))
          (substIdxs (fun k => Expr.var (.free (r.fresh + k))) idxs))
        ty2 := by
  rw [subtypingF.eq_def]
  cases ty2 <;> rfl

/-- C3: mutable references are invariant in their referent type: subtyping of
`&mut T1` against `&mut T2` is exactly recursive subtyping in both directions
— first `T1 <: T2`, then (threading the resulting contexts) `T2 <: T1`. -/
theorem subtypingF_mut_ref_invariant (G : Nat → List Variance) (r : RCtxt)
    (i : ICtxt) (t1 t2 : Ty) :
    subtypingF G r i (.ref .mut t1) (.ref .mut t2) =
      match subtypingF G r i t1 t2 with
      | none => none
      | some (r, i) => subtypingF G r i t2 t1 := by
  rw [subtypingF.eq_def]

/-- C6: for pointer types of the same kind, subtyping succeeds exactly when
the abstract paths are syntactically identical — the comparison is nominal
and no obligation is emitted (the contexts are returned unchanged); a path
mismatch is a fatal internal-consistency failure (`debug_assert_eq!`,
modelled as assertions being checked), never a recorded obligation. -/
theorem subtypingF_ptr_nominal (G : Nat → List Variance) (r : RCtxt)
    (i : ICtxt) (pk : PtrKind) (p1 p2 : Path) :
    subtypingF G r i (.ptr pk p1) (.ptr pk p2) =
      if p1 = p2 then some (r, i) else none := by
  rw [subtypingF.eq_def]
  simp

end FX

/-! ## Part 3: the folding/visiting framework of `flux-middle/src/rty/fold.rs`
(`Fold`)

The term grammar is the one the `TypeFoldable` implementations in `fold.rs`
traverse.  For each syntactic class three collectors are defined:

* `visitFvars` — the names collected by `fvars` (fold.rs lines 52–66), i.e.
  by the `super_visit_with` traversal with a `visit_fvar` override, exactly as
  the source visits each case;
* `allNames` — every free variable name occurring anywhere in the term (the
  specification's notion);
* `missed` — the names occurring at the positions the visit traversal skips.
-/

namespace Fold

/-- `rty::Var` in head position. -/
inductive Var where
  | free (n : Nat)
  | bound (i : Nat)
  deriving DecidableEq, Repr

/-- `rty::ExprKind` (fold.rs lines 448–507). -/
inductive Expr where
  | fvar (n : Nat)
  | bvar (i : Nat)
  | constDefId (d : Nat)
  | localVar (l : Nat)
  | constant (c : Nat)
  | binaryOp (op : Nat) (e1 e2 : Expr)
  | unaryOp (op : Nat) (e : Expr)
  | tupleProj (e : Expr) (i : Nat)
  | tuple (es : List Expr)
  | pathProj (e : Expr) (f : Nat)
  | app (f : Var) (args : List Expr)
  | ite (p e1 e2 : Expr)

/-- `Var::to_expr().visit_with`: the names a variable contributes when it is
itself visited as an expression. -/
def Var.names : Var → List Nat
  | .free n => [n]
  | .bound _ => []

mutual
/-- The names collected by `Expr::super_visit_with` (fold.rs lines 473–502)
with `visit_fvar` collecting: note that the function of `ExprKind::App` is
not visited. -/
def Expr.visitFvars : Expr → List Nat
  | .fvar n => [n]
  | .bvar _ => []
  | .constDefId _ => []
  | .localVar _ => []
  | .constant _ => []
  | .binaryOp _ e1 e2 => e1.visitFvars ++ e2.visitFvars
  | .unaryOp _ e => e.visitFvars
  | .tupleProj e _ => e.visitFvars
  | .tuple es => Expr.visitFvarsList es
  | .pathProj e _ => e.visitFvars
  | .app _ args => Expr.visitFvarsList args
  | .ite p e1 e2 => p.visitFvars ++ e1.visitFvars ++ e2.visitFvars

def Expr.visitFvarsList : List Expr → List Nat
  | [] => []
  | e :: es => e.visitFvars ++ Expr.visitFvarsList es
end

mutual
/-- Every free variable name occurring anywhere in the expression, including
the function of an application. -/
def Expr.allNames : Expr → List Nat
  | .fvar n => [n]
  | .bvar _ => []
  | .constDefId _ => []
  | .localVar _ => []
  | .constant _ => []
  | .binaryOp _ e1 e2 => e1.allNames ++ e2.allNames
  | .unaryOp _ e => e.allNames
  | .tupleProj e _ => e.allNames
  | .tuple es => Expr.allNamesList es
  | .pathProj e _ => e.allNames
  | .app f args => f.names ++ Expr.allNamesList args
  | .ite p e1 e2 => p.allNames ++ e1.allNames ++ e2.allNames

def Expr.allNamesList : List Expr → List Nat
  | [] => []
  | e :: es => e.allNames ++ Expr.allNamesList es
end

mutual
/-- The names the visit traversal skips inside an expression: only those in
the (unvisited) function position of `ExprKind::App`. -/
def Expr.missed : Expr → List Nat
  | .fvar _ => []
  | .bvar _ => []
  | .constDefId _ => []
  | .localVar _ => []
  | .constant _ => []
  | .binaryOp _ e1 e2 => e1.missed ++ e2.missed
  | .unaryOp _ e => e.missed
  | .tupleProj e _ => e.missed
  | .tuple es => Expr.missedList es
  | .pathProj e _ => e.missed
  | .app f args => f.names ++ Expr.missedList args
  | .ite p e1 e2 => p.missed ++ e1.missed ++ e2.missed

def Expr.missedList : List Expr → List Nat
  | [] => []
  | e :: es => e.missed ++ Expr.missedList es
end

set_option maxHeartbeats 1000000 in
theorem expr_allNames_charact : ∀ k : Nat,
    (∀ e : Expr, sizeOf e ≤ k → ∀ n,
      (n ∈ e.allNames ↔ n ∈ e.visitFvars ∨ n ∈ e.missed)) ∧
    (∀ es : List Expr, sizeOf es ≤ k → ∀ n,
      (n ∈ Expr.allNamesList es ↔
        n ∈ Expr.visitFvarsList es ∨ n ∈ Expr.missedList es)) := by
  intro k
  induction k using Nat.strong_induction_on with
  | _ k IH =>
    constructor
    · intro e hle n
      match e with
      | .fvar m =>
        simp [Expr.allNames, Expr.visitFvars, Expr.missed]
      | .bvar i =>
        simp [Expr.allNames, Expr.visitFvars, Expr.missed]
      | .constDefId d =>
        simp [Expr.allNames, Expr.visitFvars, Expr.missed]
      | .localVar l =>
        simp [Expr.allNames, Expr.visitFvars, Expr.missed]
      | .constant c =>
        simp [Expr.allNames, Expr.visitFvars, Expr.missed]
      | .binaryOp op e1 e2 =>
        have hs : sizeOf e1 < sizeOf (Expr.binaryOp op e1 e2) ∧
            sizeOf e2 < sizeOf (Expr.binaryOp op e1 e2) := by simp <;> omega
        have ih1 := (IH (k - 1) (by omega)).1 e1 (by omega) n
        have ih2 := (IH (k - 1) (by omega)).1 e2 (by omega) n
        simp only [Expr.allNames, Expr.visitFvars, Expr.missed,
          List.mem_append] at ih1 ih2 ⊢
        tauto
      | .unaryOp op e =>
        have hs : sizeOf e < sizeOf (Expr.unaryOp op e) := by simp <;> omega
        have ih := (IH (k - 1) (by omega)).1 e (by omega) n
        simp only [Expr.allNames, Expr.visitFvars, Expr.missed] at ih ⊢
        tauto
      | .tupleProj e i =>
        have hs : sizeOf e < sizeOf (Expr.tupleProj e i) := by simp <;> omega
        have ih := (IH (k - 1) (by omega)).1 e (by omega) n
        simp only [Expr.allNames, Expr.visitFvars, Expr.missed] at ih ⊢
        tauto
      | .tuple es =>
        have hs : sizeOf es < sizeOf (Expr.tuple es) := by simp <;> omega
        have ih := (IH (k - 1) (by omega)).2 es (by omega) n
        simp only [Expr.allNames, Expr.visitFvars, Expr.missed] at ih ⊢
        tauto
      | .pathProj e f =>
        have hs : sizeOf e < sizeOf (Expr.pathProj e f) := by simp <;> omega
        have ih := (IH (k - 1) (by omega)).1 e (by omega) n
        simp only [Expr.allNames, Expr.visitFvars, Expr.missed] at ih ⊢
        tauto
      | .app f args =>
        have hs : sizeOf args < sizeOf (Expr.app f args) := by simp <;> omega
        have ih := (IH (k - 1) (by omega)).2 args (by omega) n
        simp only [Expr.allNames, Expr.visitFvars, Expr.missed,
          List.mem_append] at ih ⊢
        tauto
      | .ite p e1 e2 =>
        have hs : sizeOf p < sizeOf (Expr.ite p e1 e2) ∧
            sizeOf e1 < sizeOf (Expr.ite p e1 e2) ∧
            sizeOf e2 < sizeOf (Expr.ite p e1 e2) := by simp <;> omega
        have ih0 := (IH (k - 1) (by omega)).1 p (by omega) n
        have ih1 := (IH (k - 1) (by omega)).1 e1 (by omega) n
        have ih2 := (IH (k - 1) (by omega)).1 e2 (by omega) n
        simp only [Expr.allNames, Expr.visitFvars, Expr.missed,
          List.mem_append] at ih0 ih1 ih2 ⊢
        tauto
    · intro es hle n
      match es with
      | [] =>
        simp [Expr.allNamesList, Expr.visitFvarsList, Expr.missedList]
      | e :: es =>
        have h1 : sizeOf e < sizeOf (e :: es) := by simp <;> omega
        have h2 : sizeOf es < sizeOf (e :: es) := by simp <;> omega
        have ih1 := (IH (k - 1) (by omega)).1 e (by omega) n
        have ih2 := (IH (k - 1) (by omega)).2 es (by omega) n
        simp only [Expr.allNamesList, Expr.visitFvarsList, Expr.missedList,
          List.mem_append] at ih1 ih2 ⊢
        tauto

theorem expr_mem_allNames (e : Expr) (n : Nat) :
    n ∈ e.allNames ↔ n ∈ e.visitFvars ∨ n ∈ e.missed :=
  (expr_allNames_charact (sizeOf e)).1 e le_rfl n

theorem exprList_mem_allNames (es : List Expr) (n : Nat) :
    n ∈ Expr.allNamesList es ↔
      n ∈ Expr.visitFvarsList es ∨ n ∈ Expr.missedList es :=
  (expr_allNames_charact (sizeOf es)).2 es le_rfl n

/-- `rty::KVar` (fold.rs lines 435–446): an unknown predicate with its
argument expressions and its captured scope expressions. -/
structure KVar where
  kvid : Nat
  args : List Expr
  scope : List Expr

/-- The names collected by `KVar::super_visit_with` (fold.rs lines 443–446):
only `args` is visited; the `scope` list is not. -/
def KVar.visitFvars (k : KVar) : List Nat :=
  Expr.visitFvarsList k.args

/-- Every free variable name occurring anywhere in the kvar, including in its
captured scope expressions. -/
def KVar.allNames (k : KVar) : List Nat :=
  Expr.allNamesList k.args ++ Expr.allNamesList k.scope

/-- The names the visit traversal skips inside a kvar: those skipped inside
its arguments, plus everything in its (unvisited) scope list. -/
def KVar.missed (k : KVar) : List Nat :=
  Expr.missedList k.args ++ Expr.allNamesList k.scope

theorem kvar_mem_allNames (k : KVar) (n : Nat) :
    n ∈ k.allNames ↔ n ∈ k.visitFvars ∨ n ∈ k.missed := by
  have h := exprList_mem_allNames k.args n
  simp only [KVar.allNames, KVar.visitFvars, KVar.missed, List.mem_append] at h ⊢
  tauto

/-- `rty::Pred` (fold.rs lines 398–433). -/
inductive Pred where
  | and (ps : List Pred)
  | kvar (k : KVar)
  | expr (e : Expr)
  | hole
  | app (f : Var) (args : List Expr)

mutual
/-- The names collected by `Pred::super_visit_with` (fold.rs lines 417–428):
for `Pred::App` the function is visited through `func.to_expr()`. -/
def Pred.visitFvars : Pred → List Nat
  | .and ps => Pred.visitFvarsList ps
  | .kvar k => k.visitFvars
  | .expr e => e.visitFvars
  | .hole => []
  | .app f args => f.names ++ Expr.visitFvarsList args

def Pred.visitFvarsList : List Pred → List Nat
  | [] => []
  | p :: ps => p.visitFvars ++ Pred.visitFvarsList ps
end

mutual
/-- Every free variable name occurring anywhere in the predicate. -/
def Pred.allNames : Pred → List Nat
  | .and ps => Pred.allNamesList ps
  | .kvar k => k.allNames
  | .expr e => e.allNames
  | .hole => []
  | .app f args => f.names ++ Expr.allNamesList args

def Pred.allNamesList : List Pred → List Nat
  | [] => []
  | p :: ps => p.allNames ++ Pred.allNamesList ps
end

mutual
/-- The names the visit traversal skips inside a predicate. -/
def Pred.missed : Pred → List Nat
  | .and ps => Pred.missedList ps
  | .kvar k => k.missed
  | .expr e => e.missed
  | .hole => []
  | .app _ args => Expr.missedList args

def Pred.missedList : List Pred → List Nat
  | [] => []
  | p :: ps => p.missed ++ Pred.missedList ps
end

set_option maxHeartbeats 1000000 in
theorem pred_allNames_charact : ∀ k : Nat,
    (∀ p : Pred, sizeOf p ≤ k → ∀ n,
      (n ∈ p.allNames ↔ n ∈ p.visitFvars ∨ n ∈ p.missed)) ∧
    (∀ ps : List Pred, sizeOf ps ≤ k → ∀ n,
      (n ∈ Pred.allNamesList ps ↔
        n ∈ Pred.visitFvarsList ps ∨ n ∈ Pred.missedList ps)) := by
  intro k
  induction k using Nat.strong_induction_on with
  | _ k IH =>
    constructor
    · intro p hle n
      match p with
      | .and ps =>
        have hs : sizeOf ps < sizeOf (Pred.and ps) := by simp <;> omega
        have ih := (IH (k - 1) (by omega)).2 ps (by omega) n
        simp only [Pred.allNames, Pred.visitFvars, Pred.missed] at ih ⊢
        tauto
      | .kvar kv =>
        have h := kvar_mem_allNames kv n
        simp only [Pred.allNames, Pred.visitFvars, Pred.missed]
        tauto
      | .expr e =>
        have h := expr_mem_allNames e n
        simp only [Pred.allNames, Pred.visitFvars, Pred.missed]
        tauto
      | .hole =>
        simp [Pred.allNames, Pred.visitFvars, Pred.missed]
      | .app f args =>
        have h := exprList_mem_allNames args n
        simp only [Pred.allNames, Pred.visitFvars, Pred.missed,
          List.mem_append] at h ⊢
        tauto
    · intro ps hle n
      match ps with
      | [] =>
        simp [Pred.allNamesList, Pred.visitFvarsList, Pred.missedList]
      | p :: ps =>
        have h1 : sizeOf p < sizeOf (p :: ps) := by simp <;> omega
        have h2 : sizeOf ps < sizeOf (p :: ps) := by simp <;> omega
        have ih1 := (IH (k - 1) (by omega)).1 p (by omega) n
        have ih2 := (IH (k - 1) (by omega)).2 ps (by omega) n
        simp only [Pred.allNamesList, Pred.visitFvarsList, Pred.missedList,
          List.mem_append] at ih1 ih2 ⊢
        tauto

theorem pred_mem_allNames (p : Pred) (n : Nat) :
    n ∈ p.allNames ↔ n ∈ p.visitFvars ∨ n ∈ p.missed :=
  (pred_allNames_charact (sizeOf p)).1 p le_rfl n

/-- `rty::RefineArg` (fold.rs lines 334–348). -/
inductive RefineArg where
  | expr (e : Expr)
  | pred (k : KVar)

/-- `RefineArg::super_visit_with`. -/
def RefineArg.visitFvars : RefineArg → List Nat
  | .expr e => e.visitFvars
  | .pred k => k.visitFvars

/-- Every free variable name occurring anywhere in the argument. -/
def RefineArg.allNames : RefineArg → List Nat
  | .expr e => e.allNames
  | .pred k => k.allNames

/-- The names the visit traversal skips inside the argument. -/
def RefineArg.missed : RefineArg → List Nat
  | .expr e => e.missed
  | .pred k => k.missed

theorem refineArg_mem_allNames (a : RefineArg) (n : Nat) :
    n ∈ a.allNames ↔ n ∈ a.visitFvars ∨ n ∈ a.missed := by
  cases a with
  | expr e => exact expr_mem_allNames e n
  | pred k => exact kvar_mem_allNames k n

/-- `RefineArgs` (fold.rs lines 315–332): the visit traverses the arguments
(the `is_binder` flags carry no names). -/
def idxsVisitFvars : List (RefineArg × Bool) → List Nat
  | [] => []
  | p :: ps => p.1.visitFvars ++ idxsVisitFvars ps

def idxsAllNames : List (RefineArg × Bool) → List Nat
  | [] => []
  | p :: ps => p.1.allNames ++ idxsAllNames ps

def idxsMissed : List (RefineArg × Bool) → List Nat
  | [] => []
  | p :: ps => p.1.missed ++ idxsMissed ps

theorem idxs_mem_allNames (idxs : List (RefineArg × Bool)) (n : Nat) :
    n ∈ idxsAllNames idxs ↔ n ∈ idxsVisitFvars idxs ∨ n ∈ idxsMissed idxs := by
  induction idxs with
  | nil => simp [idxsAllNames, idxsVisitFvars, idxsMissed]
  | cons p ps ih =>
    have h := refineArg_mem_allNames p.1 n
    simp only [idxsAllNames, idxsVisitFvars, idxsMissed, List.mem_append] at ih ⊢
    tauto

/-- `rty::Path`: abstract location plus projections; `Path::to_expr` builds
the projection chain over the location's variable. -/
structure Path where
  loc : Nat
  projection : List Nat

/-- `Path::to_expr`. -/
def Path.toExpr (p : Path) : Expr :=
  p.projection.foldl (fun e f => Expr.pathProj e f) (Expr.fvar p.loc)

mutual
/-- `rty::BaseTy` (fold.rs lines 350–380). -/
inductive BaseTy where
  | adt (did : Nat) (substs : List Ty)
  | array (t : Ty) (c : Nat)
  | slice (t : Ty)
  | int (w : Nat)
  | uint (w : Nat)
  | bool
  | float (w : Nat)
  | str
  | char

/-- `rty::TyKind` (fold.rs lines 249–313).  An existential stores its base
type and its guard predicate under a binder (`Binders<Pred>`, whose visit
descends into the value). -/
inductive Ty where
  | indexed (bty : BaseTy) (idxs : List (RefineArg × Bool))
  | exist (bty : BaseTy) (params : List Nat) (pred : Pred)
  | tuple (ts : List Ty)
  | ptr (rk : Nat) (path : Path)
  | boxPtr (loc : Nat) (alloc : Ty)
  | ref (rk : Nat) (t : Ty)
  | constr (pred : Pred) (t : Ty)
  | uninit
  | param (n : Nat)
  | never
  | discr (d : Nat)
end

mutual
/-- The names collected by `Ty::super_visit_with` (fold.rs lines 285–308)
with `visit_fvar` collecting. -/
def Ty.visitFvars : Ty → List Nat
  | .indexed bty idxs => bty.visitFvars ++ idxsVisitFvars idxs
  | .exist bty _ pred => bty.visitFvars ++ pred.visitFvars
  | .tuple ts => Ty.visitFvarsList ts
  | .ptr _ path => (Path.toExpr path).visitFvars
  | .boxPtr loc alloc => (Expr.fvar loc).visitFvars ++ alloc.visitFvars
  | .ref _ t => t.visitFvars
  | .constr pred t => pred.visitFvars ++ t.visitFvars
  | .uninit => []
  | .param _ => []
  | .never => []
  | .discr _ => []

/-- The names collected by `BaseTy::super_visit_with` (fold.rs lines
368–379). -/
def BaseTy.visitFvars : BaseTy → List Nat
  | .adt _ substs => Ty.visitFvarsList substs
  | .array t _ => t.visitFvars
  | .slice t => t.visitFvars
  | .int _ => []
  | .uint _ => []
  | .bool => []
  | .float _ => []
  | .str => []
  | .char => []

def Ty.visitFvarsList : List Ty → List Nat
  | [] => []
  | t :: ts => t.visitFvars ++ Ty.visitFvarsList ts
end

mutual
/-- Every free variable name occurring anywhere in the type. -/
def Ty.allNames : Ty → List Nat
  | .indexed bty idxs => bty.allNames ++ idxsAllNames idxs
  | .exist bty _ pred => bty.allNames ++ pred.allNames
  | .tuple ts => Ty.allNamesList ts
  | .ptr _ path => (Path.toExpr path).allNames
  | .boxPtr loc alloc => (Expr.fvar loc).allNames ++ alloc.allNames
  | .ref _ t => t.allNames
  | .constr pred t => pred.allNames ++ t.allNames
  | .uninit => []
  | .param _ => []
  | .never => []
  | .discr _ => []

def BaseTy.allNames : BaseTy → List Nat
  | .adt _ substs => Ty.allNamesList substs
  | .array t _ => t.allNames
  | .slice t => t.allNames
  | .int _ => []
  | .uint _ => []
  | .bool => []
  | .float _ => []
  | .str => []
  | .char => []

def Ty.allNamesList : List Ty → List Nat
  | [] => []
  | t :: ts => t.allNames ++ Ty.allNamesList ts
end

mutual
/-- The names the visit traversal skips inside the type. -/
def Ty.missed : Ty → List Nat
  | .indexed bty idxs => bty.missed ++ idxsMissed idxs
  | .exist bty _ pred => bty.missed ++ pred.missed
  | .tuple ts => Ty.missedList ts
  | .ptr _ path => (Path.toExpr path).missed
  | .boxPtr loc alloc => (Expr.fvar loc).missed ++ alloc.missed
  | .ref _ t => t.missed
  | .constr pred t => pred.missed ++ t.missed
  | .uninit => []
  | .param _ => []
  | .never => []
  | .discr _ => []

def BaseTy.missed : BaseTy → List Nat
  | .adt _ substs => Ty.missedList substs
  | .array t _ => t.missed
  | .slice t => t.missed
  | .int _ => []
  | .uint _ => []
  | .bool => []
  | .float _ => []
  | .str => []
  | .char => []

def Ty.missedList : List Ty → List Nat
  | [] => []
  | t :: ts => t.missed ++ Ty.missedList ts
end

set_option maxHeartbeats 1600000 in
theorem ty_allNames_charact : ∀ k : Nat,
    (∀ t : Ty, sizeOf t ≤ k → ∀ n,
      (n ∈ t.allNames ↔ n ∈ t.visitFvars ∨ n ∈ t.missed)) ∧
    (∀ b : BaseTy, sizeOf b ≤ k → ∀ n,
      (n ∈ b.allNames ↔ n ∈ b.visitFvars ∨ n ∈ b.missed)) ∧
    (∀ ts : List Ty, sizeOf ts ≤ k → ∀ n,
      (n ∈ Ty.allNamesList ts ↔
        n ∈ Ty.visitFvarsList ts ∨ n ∈ Ty.missedList ts)) := by
  intro k
  induction k using Nat.strong_induction_on with
  | _ k IH =>
    refine ⟨?_, ?_, ?_⟩
    · intro t hle n
      match t with
      | .indexed bty idxs =>
        have hs : sizeOf bty < sizeOf (Ty.indexed bty idxs) := by simp <;> omega
        have ihb := (IH (k - 1) (by omega)).2.1 bty (by omega) n
        have hi := idxs_mem_allNames idxs n
        simp only [Ty.allNames, Ty.visitFvars, Ty.missed,
          List.mem_append] at ihb hi ⊢
        tauto
      | .exist bty params pred =>
        have hs : sizeOf bty < sizeOf (Ty.exist bty params pred) := by
          simp <;> omega
        have ihb := (IH (k - 1) (by omega)).2.1 bty (by omega) n
        have hp := pred_mem_allNames pred n
        simp only [Ty.allNames, Ty.visitFvars, Ty.missed,
          List.mem_append] at ihb hp ⊢
        tauto
      | .tuple ts =>
        have hs : sizeOf ts < sizeOf (Ty.tuple ts) := by simp <;> omega
        have ih := (IH (k - 1) (by omega)).2.2 ts (by omega) n
        simp only [Ty.allNames, Ty.visitFvars, Ty.missed] at ih ⊢
        tauto
      | .ptr rk path =>
        have h := expr_mem_allNames (Path.toExpr path) n
        simp only [Ty.allNames, Ty.visitFvars, Ty.missed]
        tauto
      | .boxPtr loc alloc =>
        have hs : sizeOf alloc < sizeOf (Ty.boxPtr loc alloc) := by
          simp <;> omega
        have iha := (IH (k - 1) (by omega)).1 alloc (by omega) n
        have hl := expr_mem_allNames (Expr.fvar loc) n
        simp only [Ty.allNames, Ty.visitFvars, Ty.missed,
          List.mem_append] at iha hl ⊢
        tauto
      | .ref rk t =>
        have hs : sizeOf t < sizeOf (Ty.ref rk t) := by simp <;> omega
        have ih := (IH (k - 1) (by omega)).1 t (by omega) n
        simp only [Ty.allNames, Ty.visitFvars, Ty.missed] at ih ⊢
        tauto
      | .constr pred t =>
        have hs : sizeOf t < sizeOf (Ty.constr pred t) := by simp <;> omega
        have ih := (IH (k - 1) (by omega)).1 t (by omega) n
        have hp := pred_mem_allNames pred n
        simp only [Ty.allNames, Ty.visitFvars, Ty.missed,
          List.mem_append] at ih hp ⊢
        tauto
      | .uninit => simp [Ty.allNames, Ty.visitFvars, Ty.missed]
      | .param m => simp [Ty.allNames, Ty.visitFvars, Ty.missed]
      | .never => simp [Ty.allNames, Ty.visitFvars, Ty.missed]
      | .discr d => simp [Ty.allNames, Ty.visitFvars, Ty.missed]
    · intro b hle n
      match b with
      | .adt did substs =>
        have hs : sizeOf substs < sizeOf (BaseTy.adt did substs) := by
          simp <;> omega
        have ih := (IH (k - 1) (by omega)).2.2 substs (by omega) n
        simp only [BaseTy.allNames, BaseTy.visitFvars, BaseTy.missed] at ih ⊢
        tauto
      | .array t c =>
        have hs : sizeOf t < sizeOf (BaseTy.array t c) := by simp <;> omega
        have ih := (IH (k - 1) (by omega)).1 t (by omega) n
        simp only [BaseTy.allNames, BaseTy.visitFvars, BaseTy.missed] at ih ⊢
        tauto
      | .slice t =>
        have hs : sizeOf t < sizeOf (BaseTy.slice t) := by simp <;> omega
        have ih := (IH (k - 1) (by omega)).1 t (by omega) n
        simp only [BaseTy.allNames, BaseTy.visitFvars, BaseTy.missed] at ih ⊢
        tauto
      | .int w => simp [BaseTy.allNames, BaseTy.visitFvars, BaseTy.missed]
      | .uint w => simp [BaseTy.allNames, BaseTy.visitFvars, BaseTy.missed]
      | .bool => simp [BaseTy.allNames, BaseTy.visitFvars, BaseTy.missed]
      | .float w => simp [BaseTy.allNames, BaseTy.visitFvars, BaseTy.missed]
      | .str => simp [BaseTy.allNames, BaseTy.visitFvars, BaseTy.missed]
      | .char => simp [BaseTy.allNames, BaseTy.visitFvars, BaseTy.missed]
    · intro ts hle n
      match ts with
      | [] => simp [Ty.allNamesList, Ty.visitFvarsList, Ty.missedList]
      | t :: ts =>
        have h1 : sizeOf t < sizeOf (t :: ts) := by simp <;> omega
        have h2 : sizeOf ts < sizeOf (t :: ts) := by simp <;> omega
        have ih1 := (IH (k - 1) (by omega)).1 t (by omega) n
        have ih2 := (IH (k - 1) (by omega)).2.2 ts (by omega) n
        simp only [Ty.allNamesList, Ty.visitFvarsList, Ty.missedList,
          List.mem_append] at ih1 ih2 ⊢
        tauto

/-- C8 (counterexample): `fvars` does not return every free variable name
occurring in the term.  At the concrete type
`{ $k0([], scope = [x7]) | uninit }` — a constrained type whose predicate is
an unknown predicate with the free variable `7` in its captured scope
expression list — the name `7` occurs in the term but the visit traversal
collects nothing, because `KVar::super_visit_with` visits only the kvar's
arguments and silently skips its scope list. -/
theorem fvars_misses_kvar_scope :
    ¬ (∀ t : Ty, ∀ n : Nat, n ∈ Ty.visitFvars t ↔ n ∈ Ty.allNames t) := by
  intro h
  have h7 := h (Ty.constr (Pred.kvar ⟨0, [], [Expr.fvar 7]⟩) Ty.uninit) 7
  simp only [Ty.visitFvars, Ty.allNames, Pred.visitFvars, Pred.allNames,
    KVar.visitFvars, KVar.allNames, Expr.visitFvarsList, Expr.allNamesList,
    Expr.allNames, List.append_nil, List.nil_append, List.mem_append] at h7
  simp at h7

/-- C8 (amended): the visit traversal underlying `fvars` handles every
structural case of the term grammar except two positions it skips — an
unknown predicate's captured scope expression list (`KVar::super_visit_with`
visits only `args`, fold.rs lines 443–446) and the function symbol of an
expression-level application (`ExprKind::App`'s `func` is not visited,
fold.rs line 491).  Exactly: for every type of the grammar, the set of all
free variable names occurring anywhere in the term equals the names `fvars`
collects together with the names at those two skipped positions. -/
theorem fvars_collects_all_but_skipped (t : Ty) (n : Nat) :
    n ∈ t.allNames ↔ n ∈ t.visitFvars ∨ n ∈ t.missed :=
  (ty_allNames_charact (sizeOf t)).1 t le_rfl n

end Fold

end Spec2Proof
